import Mathlib

/-!
# nanostill: the planar YUV image (`vendor/github.com/shethchintan7/yuv/yuv.go`)

A shallow embedding of the `yuv` package and of the part of `writeImage`
(`main.go`) that builds a `YUV` image over a captured buffer.

Modelling conventions.

* Go `int` is `Int`; Go's `/` on `int` truncates toward zero and is
  `Int.tdiv` (`goDiv`).  The definitions of pixel lookup and sub-imaging use
  exact arithmetic: the statements about them bound every index by the length
  of a plane held in memory.  Where a statement ranges over arbitrary
  rectangles the 64-bit wrap-around of `int` matters, and the namespace
  `Machine` gives `Dx`, `Dy`, `YOffset`, `COffset`, `yuvSize` and `NewYUV` with
  every operation reduced modulo `2^64` (`wrap`); the two agree whenever no
  operation overflows (`machineNewYUV_eq_exact` and the lemmas before it).
* A Go `[]uint8` is a `Slice`: its `len` visible bytes (`elems`), the bytes of
  the backing array between `len` and `cap` (`spare`), and whether it is the
  nil slice.  The code only reads planes, so sharing of the backing array is
  not observable beyond the bytes a slice exposes.
* A run-time panic (index or slice bound out of range, negative `make`) is
  `none`.
* `image.Point`, `image.Rectangle` and their methods follow the Go standard
  library (`image/geom.go`).
-/

namespace Yuv

/-- One `uint8`. -/
abbrev Byte := Fin 256

/-- Go's integer division on `int`: truncation toward zero. -/
def goDiv (a b : Int) : Int := Int.tdiv a b

/-! ## Byte slices -/

/-- A Go `[]uint8` value. -/
structure Slice where
  /-- The `len(s)` bytes visible through the slice. -/
  elems : List Byte
  /-- The bytes of the backing array between `len(s)` and `cap(s)`. -/
  spare : List Byte
  /-- Whether this is the nil slice. -/
  isNil : Bool
deriving DecidableEq

namespace Slice

/-- The nil slice: the zero value of a slice-typed field. -/
def nilSlice : Slice := ⟨[], [], true⟩

/-- Go `len(s)`. -/
def len (s : Slice) : Int := s.elems.length

/-- Go `cap(s)`. -/
def cap (s : Slice) : Int := s.elems.length + s.spare.length

/-- Go `s[i]`: panics unless `0 <= i < len(s)`. -/
def index (s : Slice) (i : Int) : Option Byte :=
  if 0 ≤ i then s.elems[i.toNat]? else none

/-- Go `s[lo:]`: panics unless `0 <= lo <= len(s)`. -/
def sliceFrom (s : Slice) (lo : Int) : Option Slice :=
  if 0 ≤ lo ∧ lo ≤ s.len then
    some ⟨s.elems.drop lo.toNat, s.spare, s.isNil⟩
  else none

/-- Go `s[lo:hi]`: panics unless `0 <= lo <= hi <= cap(s)`. -/
def sliceTo (s : Slice) (lo hi : Int) : Option Slice :=
  if 0 ≤ lo ∧ lo ≤ hi ∧ hi ≤ s.cap then
    some ⟨((s.elems ++ s.spare).take hi.toNat).drop lo.toNat,
          (s.elems ++ s.spare).drop hi.toNat, s.isNil⟩
  else none

/-- Go `s[lo:hi:mx]`: panics unless `0 <= lo <= hi <= mx <= cap(s)`. -/
def slice3 (s : Slice) (lo hi mx : Int) : Option Slice :=
  if 0 ≤ lo ∧ lo ≤ hi ∧ hi ≤ mx ∧ mx ≤ s.cap then
    some ⟨((s.elems ++ s.spare).take hi.toNat).drop lo.toNat,
          ((s.elems ++ s.spare).take mx.toNat).drop hi.toNat, s.isNil⟩
  else none

/-- Go `make([]byte, n)`: `n` zero bytes; panics when `n < 0`. -/
def make (n : Int) : Option Slice :=
  if 0 ≤ n then some ⟨List.replicate n.toNat 0, [], false⟩ else none

end Slice

/-! ## `image.Point` and `image.Rectangle` (Go standard library) -/

/-- Go `image.Point`. -/
structure Point where
  X : Int
  Y : Int
deriving DecidableEq

/-- Go `image.Rectangle`. -/
structure Rectangle where
  Min : Point
  Max : Point
deriving DecidableEq

/-- Go `image.ZR`, the zero rectangle. -/
def ZR : Rectangle := ⟨⟨0, 0⟩, ⟨0, 0⟩⟩

/-- Go `Point.In`. -/
def Point.In (p : Point) (r : Rectangle) : Bool :=
  decide (r.Min.X ≤ p.X) && decide (p.X < r.Max.X) &&
  decide (r.Min.Y ≤ p.Y) && decide (p.Y < r.Max.Y)

/-- Go `Rectangle.Dx`, in exact arithmetic (`Machine.Dx` is the 64-bit result). -/
def Rectangle.Dx (r : Rectangle) : Int := r.Max.X - r.Min.X

/-- Go `Rectangle.Dy`, in exact arithmetic (`Machine.Dy` is the 64-bit result). -/
def Rectangle.Dy (r : Rectangle) : Int := r.Max.Y - r.Min.Y

/-- Go `Rectangle.Empty`. -/
def Rectangle.Empty (r : Rectangle) : Bool :=
  decide (r.Min.X ≥ r.Max.X) || decide (r.Min.Y ≥ r.Max.Y)

/-- Go `Rectangle.Intersect`: clamp `r` to `s`, and return `ZR` when the
result is empty. -/
def Rectangle.Intersect (r s : Rectangle) : Rectangle :=
  let minX := if r.Min.X < s.Min.X then s.Min.X else r.Min.X
  let minY := if r.Min.Y < s.Min.Y then s.Min.Y else r.Min.Y
  let maxX := if r.Max.X > s.Max.X then s.Max.X else r.Max.X
  let maxY := if r.Max.Y > s.Max.Y then s.Max.Y else r.Max.Y
  let r1 : Rectangle := ⟨⟨minX, minY⟩, ⟨maxX, maxY⟩⟩
  if r1.Empty then ZR else r1

/-- Go `image.Rect`: the rectangle with the given corners, put in canonical
order. -/
def Rect (x0 y0 x1 y1 : Int) : Rectangle :=
  let xa := if x0 > x1 then x1 else x0
  let xb := if x0 > x1 then x0 else x1
  let ya := if y0 > y1 then y1 else y0
  let yb := if y0 > y1 then y0 else y1
  ⟨⟨xa, ya⟩, ⟨xb, yb⟩⟩

/-- A rectangle is well formed when `Min.X <= Max.X` and `Min.Y <= Max.Y`. -/
def Rectangle.WellFormed (r : Rectangle) : Prop :=
  r.Min.X ≤ r.Max.X ∧ r.Min.Y ≤ r.Max.Y

/-! ## The `yuv` package -/

/-- Go `color.YCbCr`. -/
structure YCbCr where
  Y : Byte
  Cb : Byte
  Cr : Byte
deriving DecidableEq

/-- The type `YCbCrSubsampleRatio int`. -/
abbrev YCbCrSubsampleRatio := Int

/-- The constant `NV12` (`iota` = 0). -/
def NV12 : YCbCrSubsampleRatio := 0

/-- The struct `YUV`. -/
structure YUV where
  Y : Slice
  U : Slice
  V : Slice
  YStride : Int
  CStride : Int
  SubsampleRatio : YCbCrSubsampleRatio
  Rect : Rectangle
deriving DecidableEq

/-- `(*YUV).YOffset`, in exact arithmetic (`Machine.YOffset` is the 64-bit
result). -/
def YUV.YOffset (p : YUV) (x y : Int) : Int :=
  (y - p.Rect.Min.Y) * p.YStride + (x - p.Rect.Min.X)

/-- `(*YUV).COffset`, in exact arithmetic (`Machine.COffset` is the 64-bit
result). -/
def YUV.COffset (p : YUV) (x y : Int) : Int :=
  if p.SubsampleRatio = NV12 then
    2 * ((goDiv y 2 - goDiv p.Rect.Min.Y 2) * p.CStride + (goDiv x 2 - goDiv p.Rect.Min.X 2))
  else
    (y - p.Rect.Min.Y) * p.CStride + (x - p.Rect.Min.X)

/-- `(*YUV).YUVAt`; `none` is an index-out-of-range panic. -/
def YUV.YUVAt (p : YUV) (x y : Int) : Option YCbCr :=
  if !(Point.In ⟨x, y⟩ p.Rect) then
    some ⟨0, 0, 0⟩
  else
    let yi := p.YOffset x y
    let ci := p.COffset x y
    match p.Y.index yi, p.U.index ci, p.V.index ci with
    | some a, some b, some c => some ⟨a, b, c⟩
    | _, _, _ => none

/-- `(*YUV).SubImage`; `none` is a slice-bounds panic. -/
def YUV.SubImage (p : YUV) (r : Rectangle) : Option YUV :=
  let r := r.Intersect p.Rect
  if r.Empty then
    some ⟨Slice.nilSlice, Slice.nilSlice, Slice.nilSlice, 0, 0, p.SubsampleRatio, ZR⟩
  else
    let yi := p.YOffset r.Min.X r.Min.Y
    let ci := p.COffset r.Min.X r.Min.Y
    match p.Y.sliceFrom yi, p.U.sliceFrom ci, p.V.sliceFrom ci with
    | some sy, some su, some sv =>
      some ⟨sy, su, sv, p.YStride, p.CStride, p.SubsampleRatio, r⟩
    | _, _, _ => none

/-- `yuvSize` in exact arithmetic: the result tuple `(w, h, cw, ch)`
(`Machine.yuvSize` is the 64-bit result). -/
def yuvSize (r : Rectangle) (subsampleRatio : YCbCrSubsampleRatio) : Int × Int × Int × Int :=
  let w := r.Dx
  let h := r.Dy
  if subsampleRatio = NV12 then
    (w, h, goDiv (r.Max.X + 1) 2 - goDiv r.Min.X 2, goDiv (r.Max.Y + 1) 2 - goDiv r.Min.Y 2)
  else
    (w, h, w, h)

/-- `NewYUV` in exact arithmetic; `none` is a panic of `make` or of a slice
expression (`Machine.NewYUV` is the 64-bit result). -/
def NewYUV (r : Rectangle) (subsampleRatio : YCbCrSubsampleRatio) : Option YUV :=
  match yuvSize r subsampleRatio with
  | (w, h, cw, ch) =>
    let i0 := w * h + 0 * cw * ch
    let i1 := w * h + 1 * cw * ch
    let i2 := w * h + 2 * cw * ch
    match Slice.make i2 with
    | none => none
    | some b =>
      match b.slice3 0 i0 i0, b.slice3 i0 i1 i1, b.slice3 i1 i2 i2 with
      | some sy, some su, some sv => some ⟨sy, su, sv, w, cw, subsampleRatio, r⟩
      | _, _, _ => none

/-- The image built by `writeImage` (`main.go`) over the captured `buffer`:
`yuv.NewYUV(image.Rect(0, 0, width, height), yuv.NV12)` with its three planes
replaced by `buffer[0:width*height]`, `buffer[width*height:]` and
`buffer[width*height+1:]`. -/
def writeImageYUV (width height : Int) (buffer : Slice) : Option YUV :=
  match NewYUV (Rect 0 0 width height) NV12 with
  | none => none
  | some newimage =>
    match buffer.sliceTo 0 (width * height), buffer.sliceFrom (width * height),
          buffer.sliceFrom (width * height + 1) with
    | some sy, some su, some sv =>
      some ⟨sy, su, sv, newimage.YStride, newimage.CStride, newimage.SubsampleRatio,
            newimage.Rect⟩
    | _, _, _ => none

/-! ## Machine arithmetic

The same functions with Go's 64-bit two's complement `int`: the result of
every `+`, `-` and `*` is reduced by `wrap`.  Division by 2 of a representable
operand cannot overflow. -/

/-- The smallest `int` of a 64-bit platform. -/
def minInt : Int := -9223372036854775808

/-- The largest `int` of a 64-bit platform. -/
def maxInt : Int := 9223372036854775807

/-- The 64-bit two's complement `int` an operation yields when its exact
result is `z`. -/
def wrap (z : Int) : Int :=
  (z + 9223372036854775808) % 18446744073709551616 - 9223372036854775808

namespace Machine

/-- Go `Rectangle.Dx` on 64-bit `int`. -/
def Dx (r : Rectangle) : Int := wrap (r.Max.X - r.Min.X)

/-- Go `Rectangle.Dy` on 64-bit `int`. -/
def Dy (r : Rectangle) : Int := wrap (r.Max.Y - r.Min.Y)

/-- `(*YUV).YOffset` on 64-bit `int`. -/
def YOffset (p : YUV) (x y : Int) : Int :=
  wrap (wrap (wrap (y - p.Rect.Min.Y) * p.YStride) + wrap (x - p.Rect.Min.X))

/-- `(*YUV).COffset` on 64-bit `int`. -/
def COffset (p : YUV) (x y : Int) : Int :=
  if p.SubsampleRatio = NV12 then
    wrap (2 * wrap (wrap (wrap (goDiv y 2 - goDiv p.Rect.Min.Y 2) * p.CStride)
      + wrap (goDiv x 2 - goDiv p.Rect.Min.X 2)))
  else
    wrap (wrap (wrap (y - p.Rect.Min.Y) * p.CStride) + wrap (x - p.Rect.Min.X))

/-- `yuvSize` on 64-bit `int`: the result tuple `(w, h, cw, ch)`. -/
def yuvSize (r : Rectangle) (subsampleRatio : YCbCrSubsampleRatio) : Int × Int × Int × Int :=
  let w := Dx r
  let h := Dy r
  if subsampleRatio = NV12 then
    (w, h, wrap (goDiv (wrap (r.Max.X + 1)) 2 - goDiv r.Min.X 2),
      wrap (goDiv (wrap (r.Max.Y + 1)) 2 - goDiv r.Min.Y 2))
  else
    (w, h, w, h)

/-- `NewYUV` on 64-bit `int`; `none` is a panic of `make` or of a slice
expression. -/
def NewYUV (r : Rectangle) (subsampleRatio : YCbCrSubsampleRatio) : Option YUV :=
  match yuvSize r subsampleRatio with
  | (w, h, cw, ch) =>
    let i0 := wrap (wrap (w * h) + wrap (wrap (0 * cw) * ch))
    let i1 := wrap (wrap (w * h) + wrap (wrap (1 * cw) * ch))
    let i2 := wrap (wrap (w * h) + wrap (wrap (2 * cw) * ch))
    match Slice.make i2 with
    | none => none
    | some b =>
      match b.slice3 0 i0 i0, b.slice3 i0 i1 i1, b.slice3 i1 i2 i2 with
      | some sy, some su, some sv => some ⟨sy, su, sv, w, cw, subsampleRatio, r⟩
      | _, _, _ => none

end Machine

/-! ## Sample images -/

/-- A sample image with nil planes over the rectangle `(0,0)-(4,4)`. -/
def emptyPlanes4x4 : YUV :=
  ⟨Slice.nilSlice, Slice.nilSlice, Slice.nilSlice, 4, 2, NV12, Rect 0 0 4 4⟩

/-- A sample 2x2 NV12 image over an interleaved chroma buffer, as `writeImage`
lays it out: luma `10 11 12 13`, chroma pair `(20, 21)`. -/
def sample2x2 : YUV :=
  ⟨⟨[10, 11, 12, 13], [], false⟩, ⟨[20, 21], [], false⟩, ⟨[21], [], false⟩,
   2, 1, NV12, Rect 0 0 2 2⟩

/-- A sample 2x2 capture buffer in NV12 layout: four luma bytes followed by
one interleaved chroma pair. -/
def capture2x2 : Slice := ⟨[10, 11, 12, 13, 20, 21], [], false⟩

/-- The rectangle `(1,1)-(3,3)`: width and height 2, odd origin. -/
def oddOrigin2x2 : Rectangle := ⟨⟨1, 1⟩, ⟨3, 3⟩⟩

/-- A sample 4x4 capture buffer in NV12 layout: byte `i` has value `i`, so
luma is `0..15` and the interleaved chroma pairs are `16..23`. -/
def capture4x4 : Slice :=
  ⟨[0, 1, 2, 3, 4, 5, 6, 7, 8, 9, 10, 11, 12, 13, 14, 15, 16, 17, 18, 19, 20, 21, 22, 23],
   [], false⟩

/-- The image `writeImage` builds over `capture4x4` for width 4 and height 4. -/
def nv12Image4x4 : YUV :=
  ⟨⟨[0, 1, 2, 3, 4, 5, 6, 7, 8, 9, 10, 11, 12, 13, 14, 15], [16, 17, 18, 19, 20, 21, 22, 23],
     false⟩,
   ⟨[16, 17, 18, 19, 20, 21, 22, 23], [], false⟩,
   ⟨[17, 18, 19, 20, 21, 22, 23], [], false⟩,
   4, 2, NV12, Rect 0 0 4 4⟩

/-- The rectangle `(0,0)-(2^32,2^32)`: the product of its sides is `2^64`. -/
def square32 : Rectangle := ⟨⟨0, 0⟩, ⟨4294967296, 4294967296⟩⟩

/-- The rectangle `(0,0)-(2^33,2^33)`: the product of its sides and of its
chroma dimensions are multiples of `2^64`. -/
def square33 : Rectangle := ⟨⟨0, 0⟩, ⟨8589934592, 8589934592⟩⟩

/-- The rectangle `(0,0)-(MaxInt64,1)`: `Max.X + 1` overflows. -/
def widest : Rectangle := ⟨⟨0, 0⟩, ⟨9223372036854775807, 1⟩⟩

/-! ## Notions of the specification -/

/-- The ceiling of `n / 2`: the `ceil(W/2)` of the specification (see
`ceilHalf_eq_ceil`). -/
def ceilHalf (n : Int) : Int := (n + 1) / 2

/-- No `int` operation of `yuvSize` and `NewYUV` overflows on `r`: the
coordinates are representable, and so are the width, the height, in NV12 mode
`Max.X + 1` and `Max.Y + 1`, and the backing length `w*h + 2*cw*ch`, all taken
in exact arithmetic. -/
def NoOverflow (r : Rectangle) (m : YCbCrSubsampleRatio) : Prop :=
  (minInt ≤ r.Min.X ∧ minInt ≤ r.Min.Y ∧ r.Max.X ≤ maxInt ∧ r.Max.Y ≤ maxInt) ∧
  (r.Dx ≤ maxInt ∧ r.Dy ≤ maxInt) ∧
  (m = NV12 → r.Max.X + 1 ≤ maxInt ∧ r.Max.Y + 1 ≤ maxInt) ∧
  r.Dx * r.Dy + 2 * (yuvSize r m).2.2.1 * (yuvSize r m).2.2.2 ≤ maxInt

end Yuv

/-!
# nanostill: `main.go`

Strings are lists of characters.  The pieces of the Go standard library that
`getFileName` calls are modelled on the arguments it can pass:
`regexp.FindStringSubmatch` for the one pattern `(%\d{0,99}d)`,
`strings.Replace` with count 1, and `fmt.Sprintf` with one `int` operand and a
format made of `%`, decimal digits and `d` (`fmt/print.go`, `fmt/format.go`).
-/

namespace Nanostill

/-! ## `getFileName` -/

/-- The tail `\d{0,99}d` of the pattern, tried at the head of `s` with `n`
digits still allowed: the digits consumed before the `d`.  A digit is never a
`d`, so the greedy repetition has exactly one way to match. -/
def matchDigitsD : Nat → List Char → Option (List Char)
  | _, [] => none
  | n, c :: cs =>
    if c = 'd' then some []
    else if c.isDigit then
      match n with
      | 0 => none
      | k + 1 => (matchDigitsD k cs).map (fun ds => c :: ds)
    else none

/-- The pattern `(%\d{0,99}d)` tried at the head of `s`: the matched text. -/
def matchAt (s : List Char) : Option (List Char) :=
  match s with
  | [] => none
  | c :: cs =>
    if c = '%' then (matchDigitsD 99 cs).map (fun ds => '%' :: (ds ++ ['d']))
    else none

/-- `getFileNameRe.FindStringSubmatch`: the leftmost match of `(%\d{0,99}d)`
as the slice `[whole match, group 1]`, or the nil slice when nothing matches. -/
def FindStringSubmatch : List Char → List (List Char)
  | [] => []
  | c :: cs =>
    match matchAt (c :: cs) with
    | some m => [m, m]
    | none => FindStringSubmatch cs

/-- Go `strings.Replace(s, old, new, 1)`: the first occurrence of `old` in `s`
replaced by `new`. -/
def Replace1 (s old new : List Char) : List Char :=
  match s with
  | [] => if old = [] then new else []
  | c :: cs =>
    if old.isPrefixOf (c :: cs) then new ++ (c :: cs).drop old.length
    else c :: Replace1 cs old new

/-- The decimal digits of a natural number, as `fmt` writes them. -/
def decimal (n : Nat) : List Char := Nat.toDigits 10 n

/-- `(*fmt).fmtInteger` for base 10, verb `d`, flags `zero` and width `wid`
(`none` when no width is present). -/
def fmtInteger (a : Int) (zero : Bool) (wid : Option Nat) : List Char :=
  let negative := decide (a < 0)
  let digs := decimal a.natAbs
  let prec : Nat :=
    match wid with
    | some w => if zero then (if negative then w - 1 else w) else 0
    | none => 0
  let body := List.replicate (prec - digs.length) '0' ++ digs
  let signed := if negative then '-' :: body else body
  match wid with
  | some w => List.replicate (w - signed.length) ' ' ++ signed
  | none => signed

/-- `fmt.parsenum` from the current position with `num` accumulated so far:
the number read and the rest of the format, or `none` when `tooLarge` fires
(the accumulated number exceeds 1e6 before a further digit). -/
def parsenum : List Char → Nat → Option (Nat × List Char)
  | [], num => some (num, [])
  | c :: cs, num =>
    if c.isDigit then
      if num > 1000000 then none
      else parsenum cs (num * 10 + (c.toNat - '0'.toNat))
    else some (num, c :: cs)

/-- The text `%!(NOVERB)%!(EXTRA int=a)` that `doPrintf` writes when the
format ends before a verb and the operand `a` is left unused. -/
def noVerbExtra (a : Int) : List Char :=
  "%!(NOVERB)%!(EXTRA int=".toList ++ fmtInteger a false none ++ [')']

/-- `(*pp).doPrintf` after a `%`, in the loop over flags, for one `int`
operand `a`; `zero` is the flag set so far.  A `0` is a flag; a `d` is the
verb (fast path); any other digit starts the width, read by `parsenum`, and a
width that is too large moves past the end of the format, so no verb is left.
A format with other characters, or with text after the verb, is outside the
model and gives the empty string; `getFileName` never passes one. -/
def printfVerb (zero : Bool) (a : Int) : List Char → List Char
  | [] => noVerbExtra a
  | c :: cs =>
    if c = '0' then printfVerb true a cs
    else if c = 'd' then (if cs = [] then fmtInteger a zero none else [])
    else if c.isDigit then
      match parsenum (c :: cs) 0 with
      | none => noVerbExtra a
      | some (wid, rest) => if rest = ['d'] then fmtInteger a zero (some wid) else []
    else []

/-- Go `fmt.Sprintf(format, a)` for one `int` operand and a format that is a
single `%` directive (`%`, digits, `d`). -/
def Sprintf (format : List Char) (a : Int) : List Char :=
  match format with
  | [] => []
  | c :: rest => if c = '%' then printfVerb false a rest else []

/-- `getFileName` (`main.go`). -/
def getFileName (fname : List Char) (frame : Int) : List Char :=
  let m := FindStringSubmatch fname
  if m.length < 2 then fname
  else Replace1 fname (m.getD 1 []) (Sprintf (m.getD 1 []) frame)

/-! ## `getConfig` -/

/-- The digits of `strconv.Atoi` after the sign: `none` is a syntax error. -/
def atoiDigits : List Char → Nat → Option Nat
  | [], n => some n
  | c :: cs, n => if c.isDigit then atoiDigits cs (n * 10 + (c.toNat - '0'.toNat)) else none

/-- Go `strconv.Atoi`: an optional sign and at least one decimal digit, with a
value in the range of a 64-bit `int`; `none` is a returned error. -/
def Atoi (s : String) : Option Int :=
  let neg := decide (s.toList.head? = some '-')
  let body := if s.toList.head? = some '-' ∨ s.toList.head? = some '+' then s.toList.tail
              else s.toList
  if body = [] then none
  else
    match atoiDigits body 0 with
    | none => none
    | some n =>
      let v : Int := if neg then -(n : Int) else (n : Int)
      if -9223372036854775808 ≤ v ∧ v ≤ 9223372036854775807 then some v else none

/-- The map returned by `docopt.Parse(usage, ...)`, by option.  Options with a
default in `usage` and the required `--output` always hold a string;
`--latest` and `--timelapse` hold a string only when given. -/
structure Args where
  debug : Bool
  output : String
  width : String
  height : String
  flipMethod : String
  latest : Option String
  timeout : String
  captureTimeout : String
  encoding : String
  source : String
  timelapse : Option String

/-- The struct `NSConfig`; the two durations are in nanoseconds. -/
structure NSConfig where
  output : String
  latest : String
  encoding : String
  gst : String
  source : String
  timeout : Int
  captureTimeout : Int
  debug : Bool
  timelapse : Int
  width : Int
  height : Int
  flipMethod : Int
deriving DecidableEq

/-- The errors `getConfig` returns, by the `fmt.Errorf` call that builds them. -/
inductive ConfigError where
  | invalidWidth
  | invalidHeight
  | invalidFlipMethod
  | invalidTimeout
  | invalidCaptureTimeout
  | invalidEncoding
  | invalidTimelapse
deriving DecidableEq

/-- The fixed text each error message starts with. -/
def ConfigError.message : ConfigError → String
  | .invalidWidth => "Invalid --width, expected # pixels"
  | .invalidHeight => "Invalid --height, expected # pixels"
  | .invalidFlipMethod => "Invalid --flip-method, expected # 0-8"
  | .invalidTimeout => "Invalid --timeout, expected # msec"
  | .invalidCaptureTimeout => "Invalid --capture-timeout, expected # msec"
  | .invalidEncoding => "Invalid --encoding, expected jpg, bmp, gif, or png"
  | .invalidTimelapse => "Invalid --timelapse, expected # msec"

/-- How a call ends: a value with a nil error, a returned error, or a run-time
panic. -/
inductive Outcome (α : Type) where
  | ok (v : α)
  | error (e : ConfigError)
  | fault
deriving DecidableEq

/-- Go `time.Millisecond`, in nanoseconds. -/
def Millisecond : Int := 1000000

/-- `getConfig` (`main.go`) on the parsed arguments.  In the range check of
`--flip-method` the message is built from `err.Error()` while `err` is nil
(the preceding `Atoi` succeeded): calling a method on a nil `error` panics.
The products `time.Duration(timeout) * time.Millisecond` are 64-bit and wrap. -/
def getConfig (args : Args) : Outcome NSConfig :=
  match Atoi args.width with
  | none => .error .invalidWidth
  | some width =>
    match Atoi args.height with
    | none => .error .invalidHeight
    | some height =>
      match Atoi args.flipMethod with
      | none => .error .invalidFlipMethod
      | some flipMethod =>
        if flipMethod < 0 ∨ flipMethod > 8 then .fault
        else
          match Atoi args.timeout with
          | none => .error .invalidTimeout
          | some timeout =>
            match Atoi args.captureTimeout with
            | none => .error .invalidCaptureTimeout
            | some captureTimeout =>
              if args.encoding ≠ "jpg" ∧ args.encoding ≠ "bmp" ∧ args.encoding ≠ "gif" ∧
                  args.encoding ≠ "png" then .error .invalidEncoding
              else
                let c : NSConfig :=
                  { output := args.output, latest := args.latest.getD "",
                    encoding := args.encoding, gst := "", source := args.source,
                    timeout := Yuv.wrap (timeout * Millisecond),
                    captureTimeout := Yuv.wrap (captureTimeout * Millisecond),
                    debug := args.debug, timelapse := 0, width := width, height := height,
                    flipMethod := flipMethod }
                match args.timelapse with
                | none => .ok c
                | some t =>
                  match Atoi t with
                  | none => .error .invalidTimelapse
                  | some timelapse => .ok { c with timelapse := timelapse }

/-- The encoders `writeImage` chooses between. -/
inductive Encoder where
  | jpeg
  | gif
  | bmp
  | png
deriving DecidableEq

/-- The `switch cfg.encoding` of `writeImage`; `none` is its `default` branch,
which returns `Unsupported encoding` after the output file has been created. -/
def selectEncoder (encoding : String) : Option Encoder :=
  if encoding = "jpg" then some .jpeg
  else if encoding = "gif" then some .gif
  else if encoding = "bmp" then some .bmp
  else if encoding = "png" then some .png
  else none

/-! ## `buildGstPipeline` -/

/-- The struct `CamResolution`. -/
structure CamResolution where
  Width : Int
  Height : Int
  MaxFps : Int
deriving DecidableEq

/-- The table `ValidCamResolutions`. -/
def ValidCamResolutions : List CamResolution :=
  [⟨1280, 720, 60⟩, ⟨1920, 1080, 30⟩, ⟨3264, 1848, 28⟩, ⟨3264, 2464, 21⟩]

/-- The errors `buildGstPipeline` returns. -/
inductive BuildError where
  /-- The requested frame rate exceeds `MaxFps` of the chosen resolution. -/
  | unsupportedFps (fps width height maxFps : Int)
  /-- No listed resolution covers the requested width and height. -/
  | noResolution (width height : Int)
  /-- The source is neither `test` nor `nvarguscamera`. -/
  | invalidSource
deriving DecidableEq

/-- The pipeline description, by format string and the operands substituted
into it. -/
inductive Pipeline where
  | videotestsrc (framerate width height : Int)
  | nvarguscamerasrc (sourceWidth sourceHeight framerate flipMethod width height : Int)
deriving DecidableEq

/-- What a successful `buildGstPipeline` computed: the pipeline it returns and
the frame rate and source resolution it logs. -/
structure BuildOutput where
  gst : Pipeline
  inputFrameRate : Int
  sourceWidth : Int
  sourceHeight : Int
deriving DecidableEq

/-- The frame rate computed at the top of `buildGstPipeline`. -/
def inputFrameRate (timelapse : Int) : Int :=
  if timelapse > 0 then
    (if Int.tdiv 1000 timelapse < 1 then 1 else Int.tdiv 1000 timelapse)
  else 1

/-- The `for _, res := range ValidCamResolutions` loop of `buildGstPipeline`
over the remaining entries: the error it returns from inside the loop, or the
values of `sourceWidth` and `sourceHeight` after it. -/
def selectResolution (width height fps : Int) :
    List CamResolution → Except BuildError (Int × Int)
  | [] => .ok (0, 0)
  | res :: rest =>
    if res.Width ≥ width ∧ res.Height ≥ height then
      if fps > res.MaxFps then .error (.unsupportedFps fps width height res.MaxFps)
      else .ok (res.Width, res.Height)
    else selectResolution width height fps rest

/-- `buildGstPipeline` (`main.go`). -/
def buildGstPipeline (cfg : NSConfig) : Except BuildError BuildOutput :=
  let fps := inputFrameRate cfg.timelapse
  match selectResolution cfg.width cfg.height fps ValidCamResolutions with
  | .error e => .error e
  | .ok (sourceWidth, sourceHeight) =>
    if sourceWidth = 0 ∨ sourceHeight = 0 then .error (.noResolution cfg.width cfg.height)
    else if cfg.source = "test" then
      .ok ⟨.videotestsrc fps cfg.width cfg.height, fps, sourceWidth, sourceHeight⟩
    else if cfg.source = "nvarguscamera" then
      .ok ⟨.nvarguscamerasrc sourceWidth sourceHeight fps cfg.flipMethod cfg.width cfg.height,
           fps, sourceWidth, sourceHeight⟩
    else .error .invalidSource

/-! ## Sample inputs -/

/-- The arguments of `nanostill -o out.jpg`, every other option at its default. -/
def defaultArgs : Args :=
  { debug := false, output := "out.jpg", width := "3264", height := "2464",
    flipMethod := "0", latest := none, timeout := "5000", captureTimeout := "1000",
    encoding := "jpg", source := "nvarguscamera", timelapse := none }

/-- A request for 1920x1080 from the camera, one frame every 50 ms. -/
def sampleRequest : NSConfig :=
  { output := "img_%04d.jpg", latest := "", encoding := "jpg", gst := "",
    source := "nvarguscamera", timeout := 5000 * Millisecond,
    captureTimeout := 1000 * Millisecond, debug := false, timelapse := 50, width := 1920,
    height := 1080, flipMethod := 0 }

/-- A request for the full 3264x2464 sensor, one frame every 10 ms. -/
def fastRequest : NSConfig :=
  { sampleRequest with timelapse := 10, width := 3264, height := 2464 }

/-! ## Notions of the specification -/

/-- A string that the pattern `%\d{0,99}d` matches as a whole. -/
def IsPlaceholder (ph : List Char) : Prop :=
  ∃ ds : List Char, ph = '%' :: (ds ++ ['d']) ∧ (∀ c ∈ ds, c.isDigit = true) ∧ ds.length ≤ 99

/-- A string with a substring that the pattern `%\d{0,99}d` matches. -/
def ContainsPlaceholder (s : List Char) : Prop :=
  ∃ a ph b : List Char, IsPlaceholder ph ∧ s = a ++ ph ++ b

/-- The number a string of decimal digits denotes. -/
def decimalValue (ds : List Char) : Nat :=
  ds.foldl (fun n c => n * 10 + (c.toNat - '0'.toNat)) 0

/-- A string left-padded with `0` to at least `n` characters. -/
def zeroPadLeft (n : Nat) (s : List Char) : List Char :=
  List.replicate (n - s.length) '0' ++ s

end Nanostill

namespace Yuv

/-! ## Basic facts about the embedding -/

theorem goDiv_two (a : Int) : goDiv a 2 = (a + (if a < 0 then 1 else 0)) / 2 := by
  unfold goDiv
  by_cases h : a < 0
  · obtain ⟨n, rfl⟩ : ∃ n : Int, a = -n := ⟨-a, by omega⟩
    have hn : 0 ≤ n := by omega
    rw [Int.neg_tdiv, Int.tdiv_eq_ediv hn (by decide)]
    simp only [h, if_true]
    omega
  · have ha : 0 ≤ a := by omega
    rw [Int.tdiv_eq_ediv ha (by decide)]
    simp [h]

theorem Point.In_iff (x y : Int) (r : Rectangle) :
    Point.In ⟨x, y⟩ r = true ↔
      r.Min.X ≤ x ∧ x < r.Max.X ∧ r.Min.Y ≤ y ∧ y < r.Max.Y := by
  simp [Point.In, and_assoc]

theorem Rectangle.Empty_iff (r : Rectangle) :
    r.Empty = true ↔ r.Max.X ≤ r.Min.X ∨ r.Max.Y ≤ r.Min.Y := by
  simp [Rectangle.Empty]

theorem Slice.index_eq_getElem (s : Slice) (i : Int) (h0 : 0 ≤ i) (h1 : i < s.len) :
    ∃ a, s.elems[i.toNat]? = some a ∧ s.index i = some a := by
  have hlt : i.toNat < s.elems.length := by
    unfold Slice.len at h1
    omega
  refine ⟨s.elems[i.toNat], ?_, ?_⟩
  · exact List.getElem?_eq_getElem hlt
  · simp [Slice.index, h0, List.getElem?_eq_getElem hlt]

theorem Slice.index_isSome_iff (s : Slice) (i : Int) :
    (s.index i).isSome = true ↔ 0 ≤ i ∧ i < s.len := by
  unfold Slice.index Slice.len
  by_cases h0 : 0 ≤ i
  · simp only [h0, if_true, true_and]
    rw [Option.isSome_iff_exists]
    constructor
    · rintro ⟨a, ha⟩
      have := (List.getElem?_eq_some.mp ha).1
      omega
    · intro h
      have hlt : i.toNat < s.elems.length := by omega
      exact ⟨_, List.getElem?_eq_getElem hlt⟩
  · simp [h0]

theorem Slice.index_sliceFrom (s t : Slice) (lo k : Int) (h : s.sliceFrom lo = some t)
    (hk : 0 ≤ k) : t.index k = s.index (lo + k) := by
  unfold Slice.sliceFrom at h
  split at h
  · rename_i hb
    cases h
    have h2 : 0 ≤ lo + k := by omega
    simp only [Slice.index, hk, h2, if_true, List.getElem?_drop]
    congr 1
    omega
  · cases h

theorem Slice.slice3_make (n lo hi : Int) (h0 : 0 ≤ lo) (h1 : lo ≤ hi) (h2 : hi ≤ n) :
    ∃ b, Slice.make n = some b ∧
      b.slice3 lo hi hi = some ⟨List.replicate (hi - lo).toNat 0, [], false⟩ := by
  have hn : 0 ≤ n := by omega
  refine ⟨⟨List.replicate n.toNat 0, [], false⟩, by simp [Slice.make, hn], ?_⟩
  have hcap : hi ≤ (Slice.cap ⟨List.replicate n.toNat 0, [], false⟩) := by
    simp only [Slice.cap, List.length_replicate, List.length_nil]
    omega
  simp only [Slice.slice3, h0, h1, hcap, le_refl, and_self, if_true, List.append_nil,
    List.take_replicate, List.drop_replicate, Option.some.injEq, Slice.mk.injEq, and_true]
  constructor
  · congr 1
    omega
  · simp

theorem NewYUV_eq (r : Rectangle) (m : YCbCrSubsampleRatio) (w h cw ch : Int)
    (hs : yuvSize r m = (w, h, cw, ch)) (hwh : 0 ≤ w * h) (hc : 0 ≤ cw * ch) :
    NewYUV r m = some ⟨⟨List.replicate (w * h).toNat 0, [], false⟩,
      ⟨List.replicate (cw * ch).toNat 0, [], false⟩,
      ⟨List.replicate (cw * ch).toNat 0, [], false⟩, w, cw, m, r⟩ := by
  unfold NewYUV
  rw [hs]
  simp only
  obtain ⟨b, hb, hy⟩ := Slice.slice3_make (w * h + 2 * cw * ch) 0 (w * h + 0 * cw * ch)
    (by omega) (by nlinarith) (by nlinarith)
  obtain ⟨b2, hb2, hu⟩ := Slice.slice3_make (w * h + 2 * cw * ch) (w * h + 0 * cw * ch)
    (w * h + 1 * cw * ch) (by nlinarith) (by nlinarith) (by nlinarith)
  obtain ⟨b3, hb3, hv⟩ := Slice.slice3_make (w * h + 2 * cw * ch) (w * h + 1 * cw * ch)
    (w * h + 2 * cw * ch) (by nlinarith) (by nlinarith) (by nlinarith)
  rw [hb] at hb2 hb3
  cases hb2
  cases hb3
  rw [hb]
  simp only [hy, hu, hv]
  have e1 : w * h + 0 * cw * ch - 0 = w * h := by ring
  have e2 : w * h + 1 * cw * ch - (w * h + 0 * cw * ch) = cw * ch := by ring
  have e3 : w * h + 2 * cw * ch - (w * h + 1 * cw * ch) = cw * ch := by ring
  rw [e1, e2, e3]


theorem Slice.index_sliceTo (s t : Slice) (hi k : Int) (h : s.sliceTo 0 hi = some t)
    (hk0 : 0 ≤ k) (hk : k < hi) (hlen : hi ≤ s.len) : t.index k = s.index k := by
  unfold Slice.sliceTo at h
  split at h
  · cases h
    unfold Slice.len at hlen
    have h1 : k.toNat < hi.toNat := by omega
    have h2 : k.toNat < s.elems.length := by omega
    simp [Slice.index, hk0, List.getElem?_take, h1, List.getElem?_append_left h2]
  · cases h

theorem Slice.sliceFrom_isSome (s : Slice) (lo : Int) (h0 : 0 ≤ lo) (h1 : lo ≤ s.len) :
    ∃ t, s.sliceFrom lo = some t := by
  simp [Slice.sliceFrom, h0, h1]

theorem Slice.sliceTo_isSome (s : Slice) (hi : Int) (h0 : 0 ≤ hi) (h1 : hi ≤ s.len) :
    ∃ t, s.sliceTo 0 hi = some t := by
  have : hi ≤ s.cap := by
    unfold Slice.cap
    unfold Slice.len at h1
    omega
  simp [Slice.sliceTo, h0, this]

theorem ceilHalf_eq_ceil (n : Int) : ceilHalf n = ⌈(n : ℚ) / 2⌉ := by
  symm
  rw [Int.ceil_eq_iff]
  unfold ceilHalf
  obtain ⟨k, hk | hk⟩ : ∃ k, n = 2 * k ∨ n = 2 * k + 1 := ⟨n / 2, by omega⟩
  · have e : (2 * k + 1) / 2 = k := by omega
    rw [hk, e]
    push_cast
    constructor <;> linarith
  · have e : (2 * k + 1 + 1) / 2 = k + 1 := by omega
    rw [hk, e]
    push_cast
    constructor <;> linarith

theorem goDiv_two_mono (a b : Int) (h : a ≤ b) : goDiv a 2 ≤ goDiv b 2 := by
  rw [goDiv_two, goDiv_two]
  split <;> split <;> omega

theorem NewYUV_wellFormed (r : Rectangle) (m : YCbCrSubsampleRatio) (hr : r.WellFormed) :
    ∃ cw ch, yuvSize r m = (r.Dx, r.Dy, cw, ch) ∧ 0 ≤ cw ∧ 0 ≤ ch ∧
      NewYUV r m = some ⟨⟨List.replicate (r.Dx * r.Dy).toNat 0, [], false⟩,
        ⟨List.replicate (cw * ch).toNat 0, [], false⟩,
        ⟨List.replicate (cw * ch).toNat 0, [], false⟩, r.Dx, cw, m, r⟩ := by
  obtain ⟨hx, hy⟩ := hr
  have hw : 0 ≤ r.Dx := by unfold Rectangle.Dx; omega
  have hh : 0 ≤ r.Dy := by unfold Rectangle.Dy; omega
  by_cases hm : m = NV12
  · have h1 := goDiv_two_mono r.Min.X (r.Max.X + 1) (by omega)
    have h2 := goDiv_two_mono r.Min.Y (r.Max.Y + 1) (by omega)
    have hs : yuvSize r m = (r.Dx, r.Dy, goDiv (r.Max.X + 1) 2 - goDiv r.Min.X 2,
        goDiv (r.Max.Y + 1) 2 - goDiv r.Min.Y 2) := by simp [yuvSize, hm]
    exact ⟨_, _, hs, by omega, by omega,
      NewYUV_eq r m _ _ _ _ hs (mul_nonneg hw hh) (mul_nonneg (by omega) (by omega))⟩
  · have hs : yuvSize r m = (r.Dx, r.Dy, r.Dx, r.Dy) := by simp [yuvSize, hm]
    exact ⟨_, _, hs, hw, hh, NewYUV_eq r m _ _ _ _ hs (mul_nonneg hw hh) (mul_nonneg hw hh)⟩

theorem Slice.len_replicate (n : Int) (h : 0 ≤ n) (sp : List Byte) (b : Bool) :
    Slice.len ⟨List.replicate n.toNat 0, sp, b⟩ = n := by
  simp only [Slice.len, List.length_replicate]
  omega

theorem Rectangle.Intersect_eq (r q : Rectangle) :
    (r.Intersect q = ZR ∧
      (max r.Min.X q.Min.X ≥ min r.Max.X q.Max.X ∨ max r.Min.Y q.Min.Y ≥ min r.Max.Y q.Max.Y)) ∨
    (r.Intersect q = ⟨⟨max r.Min.X q.Min.X, max r.Min.Y q.Min.Y⟩,
        ⟨min r.Max.X q.Max.X, min r.Max.Y q.Max.Y⟩⟩ ∧
      max r.Min.X q.Min.X < min r.Max.X q.Max.X ∧ max r.Min.Y q.Min.Y < min r.Max.Y q.Max.Y) := by
  have e1 : (if r.Min.X < q.Min.X then q.Min.X else r.Min.X) = max r.Min.X q.Min.X := by
    split <;> omega
  have e2 : (if r.Min.Y < q.Min.Y then q.Min.Y else r.Min.Y) = max r.Min.Y q.Min.Y := by
    split <;> omega
  have e3 : (if r.Max.X > q.Max.X then q.Max.X else r.Max.X) = min r.Max.X q.Max.X := by
    split <;> omega
  have e4 : (if r.Max.Y > q.Max.Y then q.Max.Y else r.Max.Y) = min r.Max.Y q.Max.Y := by
    split <;> omega
  unfold Rectangle.Intersect
  simp only [e1, e2, e3, e4]
  by_cases he : Rectangle.Empty ⟨⟨max r.Min.X q.Min.X, max r.Min.Y q.Min.Y⟩,
        ⟨min r.Max.X q.Max.X, min r.Max.Y q.Max.Y⟩⟩ = true
  · left
    simp only [he, if_true, true_and]
    rw [Rectangle.Empty_iff] at he
    exact he
  · right
    have he2 := he
    rw [Rectangle.Empty_iff, not_or, not_le, not_le] at he2
    rw [Bool.not_eq_true] at he
    exact ⟨by simp [he], he2⟩

theorem Rectangle.Intersect_of_common (r q : Rectangle) (x y : Int)
    (h1 : Point.In ⟨x, y⟩ r = true) (h2 : Point.In ⟨x, y⟩ q = true) :
    r.Intersect q = ⟨⟨max r.Min.X q.Min.X, max r.Min.Y q.Min.Y⟩,
        ⟨min r.Max.X q.Max.X, min r.Max.Y q.Max.Y⟩⟩ ∧
      max r.Min.X q.Min.X < min r.Max.X q.Max.X ∧ max r.Min.Y q.Min.Y < min r.Max.Y q.Max.Y := by
  rw [Point.In_iff] at h1 h2
  rcases Rectangle.Intersect_eq r q with ⟨-, h⟩ | h
  · omega
  · exact h

theorem Rectangle.Intersect_of_disjoint (r q : Rectangle)
    (h : ∀ x y : Int, ¬ (Point.In ⟨x, y⟩ r = true ∧ Point.In ⟨x, y⟩ q = true)) :
    r.Intersect q = ZR := by
  rcases Rectangle.Intersect_eq r q with ⟨h0, -⟩ | ⟨-, hx, hy⟩
  · exact h0
  · exfalso
    apply h (max r.Min.X q.Min.X) (max r.Min.Y q.Min.Y)
    rw [Point.In_iff, Point.In_iff]
    omega

theorem YUVAt_ZR (sy su sv : Slice) (a b : Int) (m : YCbCrSubsampleRatio) (x y : Int) :
    YUV.YUVAt ⟨sy, su, sv, a, b, m, ZR⟩ x y = some ⟨0, 0, 0⟩ := by
  have hin : Point.In ⟨x, y⟩ ZR = false := by
    rw [← Bool.not_eq_true, Point.In_iff]
    simp only [ZR]
    omega
  simp [YUV.YUVAt, hin]

theorem YUVAt_ne_none_iff (p : YUV) (x y : Int) (hin : Point.In ⟨x, y⟩ p.Rect = true) :
    p.YUVAt x y ≠ none ↔
      (0 ≤ p.YOffset x y ∧ p.YOffset x y < p.Y.len) ∧
      (0 ≤ p.COffset x y ∧ p.COffset x y < p.U.len) ∧
      (0 ≤ p.COffset x y ∧ p.COffset x y < p.V.len) := by
  rw [← Slice.index_isSome_iff, ← Slice.index_isSome_iff, ← Slice.index_isSome_iff]
  simp only [YUV.YUVAt, hin, Bool.not_true, Bool.false_eq_true, if_false]
  cases p.Y.index (p.YOffset x y) <;> cases p.U.index (p.COffset x y) <;>
    cases p.V.index (p.COffset x y) <;> simp

theorem stride_nonneg_of_row (d s : Int) (hd : 1 ≤ d) (h : 0 ≤ d * s) : 0 ≤ s := by
  by_contra hneg
  have hs : s ≤ -1 := by omega
  nlinarith

theorem YOffset_sub_nonneg (p : YUV) (ix iy x y : Int)
    (hp : ∀ x y : Int, Point.In ⟨x, y⟩ p.Rect = true → p.YUVAt x y ≠ none)
    (hix : p.Rect.Min.X ≤ ix) (hiy : p.Rect.Min.Y ≤ iy) (hx : ix ≤ x) (hy : iy ≤ y)
    (hx2 : x < p.Rect.Max.X) (hy2 : y < p.Rect.Max.Y) :
    0 ≤ (y - iy) * p.YStride + (x - ix) := by
  rcases hy.lt_or_eq with hlt | heq
  · have hin : Point.In ⟨p.Rect.Min.X, y⟩ p.Rect = true := by
      rw [Point.In_iff]; omega
    have h0 := ((YUVAt_ne_none_iff p _ _ hin).mp (hp _ _ hin)).1.1
    simp only [YUV.YOffset, sub_self, add_zero] at h0
    have hs := stride_nonneg_of_row (y - p.Rect.Min.Y) p.YStride (by omega) h0
    have := mul_nonneg (show 0 ≤ y - iy by omega) hs
    omega
  · subst heq
    simp only [sub_self, zero_mul, zero_add]
    omega

theorem COffset_sub_nonneg (p : YUV) (ix iy x y : Int)
    (hp : ∀ x y : Int, Point.In ⟨x, y⟩ p.Rect = true → p.YUVAt x y ≠ none)
    (hix : p.Rect.Min.X ≤ ix) (hiy : p.Rect.Min.Y ≤ iy) (hx : ix ≤ x) (hy : iy ≤ y)
    (hx2 : x < p.Rect.Max.X) (hy2 : y < p.Rect.Max.Y) :
    0 ≤ (if p.SubsampleRatio = NV12 then
          2 * ((goDiv y 2 - goDiv iy 2) * p.CStride + (goDiv x 2 - goDiv ix 2))
        else (y - iy) * p.CStride + (x - ix)) := by
  have hin : Point.In ⟨p.Rect.Min.X, y⟩ p.Rect = true := by
    rw [Point.In_iff]; omega
  have h0 := ((YUVAt_ne_none_iff p _ _ hin).mp (hp _ _ hin)).2.1.1
  unfold YUV.COffset at h0
  split
  · rename_i hm
    simp only [hm, if_true, sub_self, add_zero] at h0
    have hxm := goDiv_two_mono ix x hx
    have hym := goDiv_two_mono iy y hy
    have hpm := goDiv_two_mono p.Rect.Min.Y iy hiy
    rcases hym.lt_or_eq with hlt | heq
    · have hs := stride_nonneg_of_row (goDiv y 2 - goDiv p.Rect.Min.Y 2) p.CStride
        (by omega) (by omega)
      have := mul_nonneg (show 0 ≤ goDiv y 2 - goDiv iy 2 by omega) hs
      omega
    · rw [heq]
      simp only [sub_self, zero_mul, zero_add]
      omega
  · rename_i hm
    simp only [hm, if_false, sub_self, add_zero] at h0
    rcases hy.lt_or_eq with hlt | heq
    · have hs := stride_nonneg_of_row (y - p.Rect.Min.Y) p.CStride (by omega) h0
      have := mul_nonneg (show 0 ≤ y - iy by omega) hs
      omega
    · subst heq
      simp only [sub_self, zero_mul, zero_add]
      omega

theorem wrap_eq_self (z : Int) (h0 : minInt ≤ z) (h1 : z ≤ maxInt) : wrap z = z := by
  unfold wrap
  unfold minInt at h0
  unfold maxInt at h1
  omega

theorem wrap_range (z : Int) : minInt ≤ wrap z ∧ wrap z ≤ maxInt := by
  unfold wrap minInt maxInt
  omega

theorem wrap_add_mul (z k : Int) : wrap (z + k * 18446744073709551616) = wrap z := by
  unfold wrap
  omega

theorem wrap_exists (z : Int) : ∃ k : Int, wrap z = z + k * 18446744073709551616 := by
  refine ⟨-((z + 9223372036854775808) / 18446744073709551616), ?_⟩
  unfold wrap
  omega

theorem wrap_mul_left (a b : Int) : wrap (wrap a * b) = wrap (a * b) := by
  obtain ⟨k, hk⟩ := wrap_exists a
  rw [hk]
  have : (a + k * 18446744073709551616) * b = a * b + (k * b) * 18446744073709551616 := by ring
  rw [this, wrap_add_mul]

theorem wrap_mul_right (a b : Int) : wrap (a * wrap b) = wrap (a * b) := by
  rw [mul_comm, wrap_mul_left, mul_comm]

theorem wrap_add_left (a b : Int) : wrap (wrap a + b) = wrap (a + b) := by
  obtain ⟨k, hk⟩ := wrap_exists a
  rw [hk]
  have : a + k * 18446744073709551616 + b = a + b + k * 18446744073709551616 := by ring
  rw [this, wrap_add_mul]

theorem wrap_add_right (a b : Int) : wrap (a + wrap b) = wrap (a + b) := by
  rw [add_comm, wrap_add_left, add_comm]

theorem wrap_congr (a b k : Int) (h : a = b + k * 18446744073709551616) :
    wrap a = wrap b := by
  rw [h, wrap_add_mul]

theorem wrap_lin (A S B : Int) :
    wrap (wrap (wrap A * S) + wrap B) = wrap (A * S + B) := by
  obtain ⟨k1, h1⟩ := wrap_exists A
  obtain ⟨k3, h3⟩ := wrap_exists B
  rw [h1, h3]
  obtain ⟨k2, h2⟩ := wrap_exists ((A + k1 * 18446744073709551616) * S)
  rw [h2]
  apply wrap_congr _ _ (k1 * S + k2 + k3)
  ring

theorem wrap_two_lin (A S B : Int) :
    wrap (2 * wrap (wrap (wrap A * S) + wrap B)) = wrap (2 * (A * S + B)) := by
  obtain ⟨k, hk⟩ := wrap_exists (A * S + B)
  rw [wrap_lin, hk]
  apply wrap_congr _ _ (2 * k)
  ring

theorem machineYOffset_eq_wrap (p : YUV) (x y : Int) :
    Machine.YOffset p x y = wrap (p.YOffset x y) := by
  unfold Machine.YOffset YUV.YOffset
  exact wrap_lin _ _ _

theorem machineCOffset_eq_wrap (p : YUV) (x y : Int) :
    Machine.COffset p x y = wrap (p.COffset x y) := by
  unfold Machine.COffset YUV.COffset
  split
  · exact wrap_two_lin _ _ _
  · exact wrap_lin _ _ _

theorem machineYuvSize_eq_exact (r : Rectangle) (m : YCbCrSubsampleRatio)
    (hr : r.WellFormed) (hno : NoOverflow r m) : Machine.yuvSize r m = yuvSize r m := by
  obtain ⟨⟨h1, h2, h3, h4⟩, ⟨hw, hh⟩, hnv, -⟩ := hno
  obtain ⟨hx, hy⟩ := hr
  have hdx : r.Dx = r.Max.X - r.Min.X := rfl
  have hdy : r.Dy = r.Max.Y - r.Min.Y := rfl
  have hmin : minInt = -9223372036854775808 := rfl
  have hmax : maxInt = 9223372036854775807 := rfl
  have ew : Machine.Dx r = r.Dx := wrap_eq_self _ (by omega) (by omega)
  have eh : Machine.Dy r = r.Dy := wrap_eq_self _ (by omega) (by omega)
  unfold Machine.yuvSize yuvSize
  by_cases hm : m = NV12
  · obtain ⟨hx1, hy1⟩ := hnv hm
    have e1 : wrap (r.Max.X + 1) = r.Max.X + 1 := wrap_eq_self _ (by omega) (by omega)
    have e2 : wrap (r.Max.Y + 1) = r.Max.Y + 1 := wrap_eq_self _ (by omega) (by omega)
    have c1 := goDiv_two_mono r.Min.X (r.Max.X + 1) (by omega)
    have c2 := goDiv_two_mono r.Min.Y (r.Max.Y + 1) (by omega)
    have e3 : wrap (goDiv (r.Max.X + 1) 2 - goDiv r.Min.X 2)
        = goDiv (r.Max.X + 1) 2 - goDiv r.Min.X 2 := by
      apply wrap_eq_self
      · omega
      · rw [goDiv_two, goDiv_two]
        split <;> split <;> omega
    have e4 : wrap (goDiv (r.Max.Y + 1) 2 - goDiv r.Min.Y 2)
        = goDiv (r.Max.Y + 1) 2 - goDiv r.Min.Y 2 := by
      apply wrap_eq_self
      · omega
      · rw [goDiv_two, goDiv_two]
        split <;> split <;> omega
    simp only [hm, if_true, ew, eh, e1, e2, e3, e4]
  · simp only [hm, if_false, ew, eh]

theorem machineNewYUV_eq_exact (r : Rectangle) (m : YCbCrSubsampleRatio)
    (hr : r.WellFormed) (hno : NoOverflow r m) : Machine.NewYUV r m = NewYUV r m := by
  have hs := machineYuvSize_eq_exact r m hr hno
  obtain ⟨cw, ch, hsz, hcw, hch, -⟩ := NewYUV_wellFormed r m hr
  obtain ⟨-, -, -, htot⟩ := hno
  rw [hsz] at htot
  simp only at htot
  have hw : 0 ≤ r.Dx := by unfold Rectangle.Dx; exact sub_nonneg.mpr hr.1
  have hh : 0 ≤ r.Dy := by unfold Rectangle.Dy; exact sub_nonneg.mpr hr.2
  have hwh : 0 ≤ r.Dx * r.Dy := mul_nonneg hw hh
  have hcc : 0 ≤ cw * ch := mul_nonneg hcw hch
  have hmin : minInt = -9223372036854775808 := rfl
  have e2 : 2 * cw * ch = 2 * (cw * ch) := by ring
  have key : ∀ k : Int, 0 ≤ k → k ≤ 2 →
      wrap (wrap (r.Dx * r.Dy) + wrap (wrap (k * cw) * ch)) = r.Dx * r.Dy + k * cw * ch := by
    intro k hk0 hk2
    have e : k * cw * ch = k * (cw * ch) := by ring
    have hk : 0 ≤ k * (cw * ch) := mul_nonneg hk0 hcc
    have hk' : k * (cw * ch) ≤ 2 * (cw * ch) := by nlinarith
    rw [add_comm (wrap (r.Dx * r.Dy)) _, wrap_lin, wrap_eq_self _ (by omega) (by omega)]
    ring
  unfold Machine.NewYUV NewYUV
  rw [hs, hsz]
  simp only [key 0 (by decide) (by decide), key 1 (by decide) (by decide),
    key 2 (by decide) (by decide)]

/-! ## Construction in exact arithmetic

What `NewYUV` builds when no `int` operation overflows, stated on the
exact-arithmetic definitions; `machineNewYUV_eq_exact` carries these facts to
the 64-bit definitions. -/

/-- In exact arithmetic `YOffset` maps the pixels of a well-formed `r`
one-to-one onto the indices of the luma plane of `NewYUV(r, m)`. -/
theorem NewYUV_luma_bijection_exact (r : Rectangle) (m : YCbCrSubsampleRatio)
    (hr : r.Min.X ≤ r.Max.X ∧ r.Min.Y ≤ r.Max.Y) :
    ∃ p, NewYUV r m = some p ∧ p.Rect = r ∧ p.YStride = r.Dx ∧ p.Y.len = r.Dx * r.Dy ∧
      (∀ x y : Int, Point.In ⟨x, y⟩ r = true →
        0 ≤ p.YOffset x y ∧ p.YOffset x y < p.Y.len) ∧
      (∀ x y x2 y2 : Int, Point.In ⟨x, y⟩ r = true → Point.In ⟨x2, y2⟩ r = true →
        p.YOffset x y = p.YOffset x2 y2 → x = x2 ∧ y = y2) ∧
      (∀ i : Int, 0 ≤ i → i < p.Y.len →
        ∃ x y : Int, Point.In ⟨x, y⟩ r = true ∧ p.YOffset x y = i) := by
  obtain ⟨cw, ch, -, -, -, hnew⟩ := NewYUV_wellFormed r m hr
  have hw : 0 ≤ r.Dx := by unfold Rectangle.Dx; omega
  have hh : 0 ≤ r.Dy := by unfold Rectangle.Dy; omega
  have hlen : Slice.len ⟨List.replicate (r.Dx * r.Dy).toNat 0, [], false⟩ = r.Dx * r.Dy :=
    Slice.len_replicate _ (mul_nonneg hw hh) _ _
  refine ⟨_, hnew, rfl, rfl, hlen, ?_, ?_, ?_⟩
  · intro x y hin
    rw [Point.In_iff] at hin
    rw [hlen]
    simp only [YUV.YOffset]
    have hv : 0 ≤ y - r.Min.Y := by omega
    have hv2 : y - r.Min.Y ≤ r.Dy - 1 := by unfold Rectangle.Dy; omega
    have hu2 : x - r.Min.X < r.Dx := by unfold Rectangle.Dx; omega
    have h1 : 0 ≤ (y - r.Min.Y) * r.Dx := mul_nonneg hv hw
    have h2 : (y - r.Min.Y) * r.Dx ≤ (r.Dy - 1) * r.Dx := by nlinarith
    have h3 : (r.Dy - 1) * r.Dx = r.Dx * r.Dy - r.Dx := by ring
    constructor <;> omega
  · intro x y x2 y2 hin hin2 heq
    rw [Point.In_iff] at hin hin2
    simp only [YUV.YOffset] at heq
    have hu : x - r.Min.X < r.Dx := by unfold Rectangle.Dx; omega
    have hu2 : x2 - r.Min.X < r.Dx := by unfold Rectangle.Dx; omega
    have hy : y = y2 := by
      rcases lt_trichotomy y y2 with h | h | h
      · exfalso
        have : (y - r.Min.Y + 1) * r.Dx ≤ (y2 - r.Min.Y) * r.Dx := by nlinarith
        have e : (y - r.Min.Y + 1) * r.Dx = (y - r.Min.Y) * r.Dx + r.Dx := by ring
        omega
      · exact h
      · exfalso
        have : (y2 - r.Min.Y + 1) * r.Dx ≤ (y - r.Min.Y) * r.Dx := by nlinarith
        have e : (y2 - r.Min.Y + 1) * r.Dx = (y2 - r.Min.Y) * r.Dx + r.Dx := by ring
        omega
    subst hy
    exact ⟨by omega, rfl⟩
  · intro i hi0 hi1
    rw [hlen] at hi1
    have hwpos : 0 < r.Dx := by
      rcases hw.lt_or_eq with h | h
      · exact h
      · rw [← h] at hi1; omega
    have hq0 : 0 ≤ i / r.Dx := Int.ediv_nonneg hi0 hw
    have hq1 : i / r.Dx < r.Dy := Int.ediv_lt_of_lt_mul hwpos (by rw [mul_comm]; exact hi1)
    have hm0 : 0 ≤ i % r.Dx := Int.emod_nonneg i (by omega)
    have hm1 : i % r.Dx < r.Dx := Int.emod_lt_of_pos i hwpos
    refine ⟨r.Min.X + i % r.Dx, r.Min.Y + i / r.Dx, ?_, ?_⟩
    · rw [Point.In_iff]
      have hdx : r.Dx = r.Max.X - r.Min.X := rfl
      have hdy : r.Dy = r.Max.Y - r.Min.Y := rfl
      refine ⟨by omega, by omega, by omega, by omega⟩
    · simp only [YUV.YOffset]
      have := Int.ediv_add_emod i r.Dx
      have e1 : r.Min.Y + i / r.Dx - r.Min.Y = i / r.Dx := by ring
      have e2 : r.Min.X + i % r.Dx - r.Min.X = i % r.Dx := by ring
      rw [e1, e2]
      linarith [mul_comm r.Dx (i / r.Dx)]

/-- In exact arithmetic the planes of `NewYUV(r, m)` have the sizes `yuvSize`
computes and no spare capacity. -/
theorem NewYUV_plane_sizes_exact (r : Rectangle)
    (hr : r.Min.X ≤ r.Max.X ∧ r.Min.Y ≤ r.Max.Y) (m : YCbCrSubsampleRatio)
    (W H cw ch : Int) (hW : W = r.Max.X - r.Min.X) (hH : H = r.Max.Y - r.Min.Y)
    (hcw : cw = if m = NV12 then Int.tdiv (r.Max.X + 1) 2 - Int.tdiv r.Min.X 2 else W)
    (hch : ch = if m = NV12 then Int.tdiv (r.Max.Y + 1) 2 - Int.tdiv r.Min.Y 2 else H) :
    ∃ p, NewYUV r m = some p ∧ p.Rect = r ∧ p.SubsampleRatio = m ∧
      p.YStride = W ∧ W = r.Dx ∧ p.CStride = cw ∧
      p.Y.len = W * H ∧ p.U.len = cw * ch ∧ p.V.len = cw * ch ∧
      p.Y.cap = p.Y.len ∧ p.U.cap = p.U.len ∧ p.V.cap = p.V.len ∧
      p.Y.len + p.U.len + p.V.len = W * H + 2 * cw * ch := by
  obtain ⟨cw2, ch2, hs, hcw0, hch0, hnew⟩ := NewYUV_wellFormed r m hr
  have hw : 0 ≤ r.Dx := by unfold Rectangle.Dx; omega
  have hh : 0 ≤ r.Dy := by unfold Rectangle.Dy; omega
  have hWx : W = r.Dx := hW
  have hHy : H = r.Dy := hH
  have hc : cw2 = cw ∧ ch2 = ch := by
    by_cases hm : m = NV12
    · simp only [yuvSize, hm, if_true, Prod.mk.injEq, true_and, goDiv] at hs
      simp only [hm, if_true] at hcw hch
      rw [hcw, hch]
      exact ⟨hs.1.symm, hs.2.symm⟩
    · simp only [yuvSize, hm, if_false, Prod.mk.injEq, true_and] at hs
      simp only [hm, if_false] at hcw hch
      rw [hcw, hch, hWx, hHy]
      exact ⟨hs.1.symm, hs.2.symm⟩
  obtain ⟨rfl, rfl⟩ := hc
  have hly : Slice.len ⟨List.replicate (r.Dx * r.Dy).toNat 0, [], false⟩ = W * H := by
    rw [hWx, hHy]
    exact Slice.len_replicate _ (mul_nonneg hw hh) _ _
  have hlc : Slice.len ⟨List.replicate (cw2 * ch2).toNat 0, [], false⟩ = cw2 * ch2 :=
    Slice.len_replicate _ (mul_nonneg hcw0 hch0) _ _
  refine ⟨_, hnew, rfl, rfl, hWx.symm, hWx, rfl, hly, hlc, hlc, ?_, ?_, ?_, ?_⟩
  · simp [Slice.cap, Slice.len]
  · simp [Slice.cap, Slice.len]
  · simp [Slice.cap, Slice.len]
  · simp only [hly, hlc]
    ring

/-- In exact arithmetic, with non-negative coordinates, the chroma dimensions
are the ceilings of half the width and height, plus one when the origin is odd
and the size even. -/
theorem NewYUV_chroma_ceilHalf_parity_exact (r : Rectangle)
    (hnn : 0 ≤ r.Min.X ∧ 0 ≤ r.Min.Y)
    (hr : r.Min.X ≤ r.Max.X ∧ r.Min.Y ≤ r.Max.Y)
    (CW CH : Int)
    (hCW : CW = if r.Min.X % 2 = 1 ∧ r.Dx % 2 = 0 then r.Dx / 2 + 1 else ceilHalf r.Dx)
    (hCH : CH = if r.Min.Y % 2 = 1 ∧ r.Dy % 2 = 0 then r.Dy / 2 + 1 else ceilHalf r.Dy) :
    ∃ p, NewYUV r NV12 = some p ∧ yuvSize r NV12 = (r.Dx, r.Dy, CW, CH) ∧
      p.CStride = CW ∧ p.Y.len = r.Dx * r.Dy ∧ p.U.len = CW * CH ∧ p.V.len = CW * CH ∧
      p.Y.len + p.U.len + p.V.len = r.Dx * r.Dy + 2 * CW * CH := by
  obtain ⟨cw, ch, hs, hcw0, hch0, hnew⟩ := NewYUV_wellFormed r NV12 hr
  have hw : 0 ≤ r.Dx := by unfold Rectangle.Dx; omega
  have hh : 0 ≤ r.Dy := by unfold Rectangle.Dy; omega
  have hdx : r.Dx = r.Max.X - r.Min.X := rfl
  have hdy : r.Dy = r.Max.Y - r.Min.Y := rfl
  have hc : cw = CW ∧ ch = CH := by
    simp only [yuvSize, if_true, Prod.mk.injEq, true_and, goDiv_two] at hs
    have n1 : ¬ (r.Max.X + 1 < 0) := by omega
    have n2 : ¬ (r.Min.X < 0) := by omega
    have n3 : ¬ (r.Max.Y + 1 < 0) := by omega
    have n4 : ¬ (r.Min.Y < 0) := by omega
    simp only [n1, n2, n3, n4, if_false, add_zero] at hs
    unfold ceilHalf at hCW hCH
    constructor
    · rw [hCW, ← hs.1]
      split <;> omega
    · rw [hCH, ← hs.2]
      split <;> omega
  obtain ⟨rfl, rfl⟩ := hc
  have hly : Slice.len ⟨List.replicate (r.Dx * r.Dy).toNat 0, [], false⟩ = r.Dx * r.Dy :=
    Slice.len_replicate _ (mul_nonneg hw hh) _ _
  have hlc : Slice.len ⟨List.replicate (cw * ch).toNat 0, [], false⟩ = cw * ch :=
    Slice.len_replicate _ (mul_nonneg hcw0 hch0) _ _
  refine ⟨_, hnew, hs, rfl, hly, hlc, hlc, ?_⟩
  simp only [hly, hlc]
  ring

/-- In exact arithmetic, with non-negative coordinates, two pixels share a
chroma index exactly when they lie in the same 2x2 block. -/
theorem NewYUV_chroma_shared_by_block_exact (r : Rectangle) (hnn : 0 ≤ r.Min.X ∧ 0 ≤ r.Min.Y) :
    ((r.Min.X ≤ r.Max.X ∧ r.Min.Y ≤ r.Max.Y) → ∃ p, NewYUV r NV12 = some p) ∧
    ∀ p, NewYUV r NV12 = some p →
      ∀ x y x2 y2 : Int, Point.In ⟨x, y⟩ r = true → Point.In ⟨x2, y2⟩ r = true →
        (p.COffset x y = p.COffset x2 y2 ↔ x / 2 = x2 / 2 ∧ y / 2 = y2 / 2) := by
  constructor
  · intro hr
    obtain ⟨cw, ch, -, -, -, hnew⟩ := NewYUV_wellFormed r NV12 hr
    exact ⟨_, hnew⟩
  · intro p hp x y x2 y2 hin hin2
    rw [Point.In_iff] at hin hin2
    have hr : r.Min.X ≤ r.Max.X ∧ r.Min.Y ≤ r.Max.Y := by omega
    obtain ⟨cw, ch, hs, -, -, hnew⟩ := NewYUV_wellFormed r NV12 hr
    rw [hnew] at hp
    cases hp
    simp only [yuvSize, if_true, Prod.mk.injEq, true_and, goDiv_two] at hs
    have n1 : ¬ (r.Max.X + 1 < 0) := by omega
    have n2 : ¬ (r.Min.X < 0) := by omega
    simp only [n1, n2, if_false, add_zero] at hs
    have hcw := hs.1
    have m1 : ¬ (x < 0) := by omega
    have m2 : ¬ (y < 0) := by omega
    have m3 : ¬ (x2 < 0) := by omega
    have m4 : ¬ (y2 < 0) := by omega
    have m5 : ¬ (r.Min.Y < 0) := by omega
    simp only [YUV.COffset, if_true, goDiv_two, n2, m1, m2, m3, m4, m5, if_false, add_zero]
    -- the column and row of each pixel in the chroma plane
    obtain ⟨a, ha⟩ : ∃ a, a = x / 2 - r.Min.X / 2 := ⟨_, rfl⟩
    obtain ⟨a2, ha2⟩ : ∃ a2, a2 = x2 / 2 - r.Min.X / 2 := ⟨_, rfl⟩
    obtain ⟨b, hb⟩ : ∃ b, b = y / 2 - r.Min.Y / 2 := ⟨_, rfl⟩
    obtain ⟨b2, hb2⟩ : ∃ b2, b2 = y2 / 2 - r.Min.Y / 2 := ⟨_, rfl⟩
    rw [← ha, ← ha2, ← hb, ← hb2]
    have ha0 : 0 ≤ a ∧ a < cw := by omega
    have ha20 : 0 ≤ a2 ∧ a2 < cw := by omega
    constructor
    · intro heq
      have hbb : b = b2 := by
        rcases lt_trichotomy b b2 with h | h | h
        · exfalso
          have : (b + 1) * cw ≤ b2 * cw := by nlinarith
          have e : (b + 1) * cw = b * cw + cw := by ring
          omega
        · exact h
        · exfalso
          have : (b2 + 1) * cw ≤ b * cw := by nlinarith
          have e : (b2 + 1) * cw = b2 * cw + cw := by ring
          omega
      subst hbb
      omega
    · rintro ⟨hx, hy⟩
      have e1 : a = a2 := by omega
      have e2 : b = b2 := by omega
      rw [e1, e2]

theorem NoOverflow_bounds (r : Rectangle) (m : YCbCrSubsampleRatio) (hr : r.WellFormed)
    (hno : NoOverflow r m) :
    ∃ cw ch, yuvSize r m = (r.Dx, r.Dy, cw, ch) ∧ 0 ≤ cw ∧ 0 ≤ ch ∧
      0 ≤ r.Dx ∧ 0 ≤ r.Dy ∧ r.Dx ≤ maxInt ∧ r.Dy ≤ maxInt ∧
      r.Dx * r.Dy ≤ maxInt ∧ 2 * cw * ch ≤ maxInt ∧
      Machine.Dx r = r.Dx ∧ Machine.Dy r = r.Dy := by
  obtain ⟨cw, ch, hsz, hcw, hch, -⟩ := NewYUV_wellFormed r m hr
  have hno2 := hno
  obtain ⟨⟨h1, h2, h3, h4⟩, ⟨hw1, hh1⟩, -, htot⟩ := hno2
  rw [hsz] at htot
  simp only at htot
  have hw : 0 ≤ r.Dx := by unfold Rectangle.Dx; exact sub_nonneg.mpr hr.1
  have hh : 0 ≤ r.Dy := by unfold Rectangle.Dy; exact sub_nonneg.mpr hr.2
  have hwh : 0 ≤ r.Dx * r.Dy := mul_nonneg hw hh
  have hcc : 0 ≤ cw * ch := mul_nonneg hcw hch
  have e2 : 2 * cw * ch = 2 * (cw * ch) := by ring
  have hmin : minInt = -9223372036854775808 := rfl
  have hmax : maxInt = 9223372036854775807 := rfl
  refine ⟨cw, ch, hsz, hcw, hch, hw, hh, hw1, hh1, by omega, by omega, ?_, ?_⟩
  · exact wrap_eq_self _ (by unfold Rectangle.Dx at hw; omega) (by unfold Rectangle.Dx at hw1; omega)
  · exact wrap_eq_self _ (by unfold Rectangle.Dy at hh; omega) (by unfold Rectangle.Dy at hh1; omega)

theorem NewYUV_COffset_range (r : Rectangle) (hnn : 0 ≤ r.Min.X ∧ 0 ≤ r.Min.Y)
    (cw ch : Int) (hs : yuvSize r NV12 = (r.Dx, r.Dy, cw, ch)) (p : YUV)
    (hrect : p.Rect = r) (hstride : p.CStride = cw) (hm : p.SubsampleRatio = NV12)
    (x y : Int) (hin : Point.In ⟨x, y⟩ r = true) :
    0 ≤ p.COffset x y ∧ p.COffset x y + 2 ≤ 2 * cw * ch := by
  rw [Point.In_iff] at hin
  simp only [yuvSize, if_true, Prod.mk.injEq, true_and, goDiv_two] at hs
  have n1 : ¬ (r.Max.X + 1 < 0) := by omega
  have n2 : ¬ (r.Min.X < 0) := by omega
  have n3 : ¬ (r.Max.Y + 1 < 0) := by omega
  have n4 : ¬ (r.Min.Y < 0) := by omega
  simp only [n1, n2, n3, n4, if_false, add_zero] at hs
  have m1 : ¬ (x < 0) := by omega
  have m2 : ¬ (y < 0) := by omega
  simp only [YUV.COffset, hm, hrect, hstride, if_true, goDiv_two, n2, n4, m1, m2, if_false,
    add_zero]
  obtain ⟨a, ha⟩ : ∃ a, a = x / 2 - r.Min.X / 2 := ⟨_, rfl⟩
  obtain ⟨b, hb⟩ : ∃ b, b = y / 2 - r.Min.Y / 2 := ⟨_, rfl⟩
  rw [← ha, ← hb]
  have ha0 : 0 ≤ a ∧ a ≤ cw - 1 := by omega
  have hb0 : 0 ≤ b ∧ b ≤ ch - 1 := by omega
  have hcw : 0 ≤ cw := by omega
  have h1 : 0 ≤ b * cw := mul_nonneg hb0.1 hcw
  have h2 : b * cw ≤ (ch - 1) * cw := by nlinarith
  have h3 : (ch - 1) * cw = cw * ch - cw := by ring
  have h4 : 2 * cw * ch = 2 * (cw * ch) := by ring
  constructor <;> omega

/-! ## Pixel lookup -/

/-- C1: for every image `p` (any planes, strides and subsample mode) and every
coordinate `(x, y)` that is not inside `p.Rect`, `YUVAt` returns the zero
colour; the planes are never consulted, so the lookup cannot fault. -/
theorem YUVAt_outside_zero (p : YUV) (x y : Int)
    (hout : ¬ (p.Rect.Min.X ≤ x ∧ x < p.Rect.Max.X ∧ p.Rect.Min.Y ≤ y ∧ y < p.Rect.Max.Y)) :
    p.YUVAt x y = some ⟨0, 0, 0⟩ := by
  have hin : Point.In ⟨x, y⟩ p.Rect = false := by
    rw [← Bool.not_eq_true, Point.In_iff]
    exact hout
  simp [YUV.YUVAt, hin]

theorem YUVAt_outside_zero_witness :
    ¬ (emptyPlanes4x4.Rect.Min.X ≤ 4 ∧ 4 < emptyPlanes4x4.Rect.Max.X ∧
        emptyPlanes4x4.Rect.Min.Y ≤ 0 ∧ 0 < emptyPlanes4x4.Rect.Max.Y) ∧
      emptyPlanes4x4.YUVAt 4 0 = some ⟨0, 0, 0⟩ :=
  ⟨by decide, YUVAt_outside_zero emptyPlanes4x4 4 0 (by decide)⟩

/-- C2: for every image `p` and every `(x, y)` inside `p.Rect` whose indices
`yi = (y - Min.Y)*YStride + (x - Min.X)` and
`ci = 2*((y/2 - Min.Y/2)*CStride + (x/2 - Min.X/2))` (NV12) or
`ci = (y - Min.Y)*CStride + (x - Min.X)` (any other mode) are within the
planes, `YUVAt` returns `(Y[yi], U[ci], V[ci])`; and in a 4x4 NV12 image at
origin `(0,0)` with `CStride = 2` the pixel `(2,2)` has chroma index 6. -/
theorem YUVAt_inside_indices :
    (∀ (p : YUV) (x y yi ci : Int),
      (p.Rect.Min.X ≤ x ∧ x < p.Rect.Max.X ∧ p.Rect.Min.Y ≤ y ∧ y < p.Rect.Max.Y) →
      yi = (y - p.Rect.Min.Y) * p.YStride + (x - p.Rect.Min.X) →
      ci = (if p.SubsampleRatio = NV12 then
              2 * ((goDiv y 2 - goDiv p.Rect.Min.Y 2) * p.CStride
                    + (goDiv x 2 - goDiv p.Rect.Min.X 2))
            else (y - p.Rect.Min.Y) * p.CStride + (x - p.Rect.Min.X)) →
      (0 ≤ yi ∧ yi < p.Y.len) → (0 ≤ ci ∧ ci < p.U.len ∧ ci < p.V.len) →
      ∃ a b c, p.Y.elems[yi.toNat]? = some a ∧ p.U.elems[ci.toNat]? = some b ∧
        p.V.elems[ci.toNat]? = some c ∧ p.YUVAt x y = some ⟨a, b, c⟩) ∧
    (∀ p : YUV, p.Rect = Rect 0 0 4 4 → p.SubsampleRatio = NV12 → p.CStride = 2 →
      p.COffset 2 2 = 6) := by
  constructor
  · intro p x y yi ci hin hyi hci hy hc
    have hIn : Point.In ⟨x, y⟩ p.Rect = true := (Point.In_iff x y p.Rect).mpr hin
    have hyo : p.YOffset x y = yi := by rw [hyi, YUV.YOffset]
    have hco : p.COffset x y = ci := by rw [hci, YUV.COffset]
    obtain ⟨a, ha, ha2⟩ := Slice.index_eq_getElem p.Y yi hy.1 hy.2
    obtain ⟨b, hb, hb2⟩ := Slice.index_eq_getElem p.U ci hc.1 hc.2.1
    obtain ⟨c, hc1, hc2⟩ := Slice.index_eq_getElem p.V ci hc.1 hc.2.2
    refine ⟨a, b, c, ha, hb, hc1, ?_⟩
    simp [YUV.YUVAt, hIn, hyo, hco, ha2, hb2, hc2]
  · intro p hr hs hc
    simp only [YUV.COffset, hs, hc, hr, if_true]
    decide

theorem YUVAt_inside_indices_witness :
    (∃ a b c, sample2x2.Y.elems[(3 : Int).toNat]? = some a ∧
        sample2x2.U.elems[(0 : Int).toNat]? = some b ∧
        sample2x2.V.elems[(0 : Int).toNat]? = some c ∧
        sample2x2.YUVAt 1 1 = some ⟨a, b, c⟩) ∧
      emptyPlanes4x4.COffset 2 2 = 6 :=
  ⟨YUVAt_inside_indices.1 sample2x2 1 1 3 0 (by decide) (by decide) (by decide)
      (by decide) (by decide),
   YUVAt_inside_indices.2 emptyPlanes4x4 rfl rfl rfl⟩

/-- C3: for even positive `W`, `H` and a capture buffer `b` of length exactly
`W*H + W*H/2`, the image `writeImage` builds over `b` exists (no slice
expression faults) and, for every `0 <= x < W`, `0 <= y < H`, `YUVAt(x, y)`
returns without fault the captured luma sample `b[y*W + x]` and the
interleaved chroma pair `b[W*H + (y/2)*W + 2*(x/2)]`,
`b[W*H + (y/2)*W + 2*(x/2) + 1]` of the pixel's 2x2 block. -/
theorem writeImage_reproduces_capture (W H : Int) (b : Slice)
    (hW : 0 < W) (hH : 0 < H) (hWe : W % 2 = 0) (hHe : H % 2 = 0)
    (hlen : b.len = W * H + goDiv (W * H) 2) :
    ∃ p, writeImageYUV W H b = some p ∧
      ∀ x y : Int, 0 ≤ x → x < W → 0 ≤ y → y < H →
        ∃ cy cu cv,
          b.index (y * W + x) = some cy ∧
          b.index (W * H + goDiv y 2 * W + 2 * goDiv x 2) = some cu ∧
          b.index (W * H + goDiv y 2 * W + 2 * goDiv x 2 + 1) = some cv ∧
          p.YUVAt x y = some ⟨cy, cu, cv⟩ := by
  obtain ⟨k, hk⟩ : ∃ k, W = 2 * k := ⟨W / 2, by omega⟩
  obtain ⟨l, hl⟩ : ∃ l, H = 2 * l := ⟨H / 2, by omega⟩
  have hk1 : 1 ≤ k := by omega
  have hl1 : 1 ≤ l := by omega
  have hkl : 1 ≤ k * l := by nlinarith
  have hWH : W * H = 4 * (k * l) := by rw [hk, hl]; ring
  have hlen2 : b.len = 6 * (k * l) := by
    rw [hlen, goDiv_two, hWH]
    have : ¬ (4 * (k * l) < 0) := by omega
    simp only [this, if_false]
    omega
  have hrect : Rect 0 0 W H = ⟨⟨0, 0⟩, ⟨W, H⟩⟩ := by
    have h1 : ¬ (0 > W) := by omega
    have h2 : ¬ (0 > H) := by omega
    simp [Rect, h1, h2]
  have hsize : yuvSize (Rect 0 0 W H) NV12 = (W, H, k, l) := by
    rw [hrect]
    simp only [yuvSize, Rectangle.Dx, Rectangle.Dy, if_true, goDiv_two]
    have h1 : ¬ (W + 1 < 0) := by omega
    have h2 : ¬ (H + 1 < 0) := by omega
    simp only [h1, h2, if_false, Prod.mk.injEq]
    refine ⟨by omega, by omega, by omega, by omega⟩
  have hnew := NewYUV_eq (Rect 0 0 W H) NV12 W H k l hsize (by nlinarith) (by omega)
  obtain ⟨sy, hsy⟩ := Slice.sliceTo_isSome b (W * H) (by omega) (by omega)
  obtain ⟨su, hsu⟩ := Slice.sliceFrom_isSome b (W * H) (by omega) (by omega)
  obtain ⟨sv, hsv⟩ := Slice.sliceFrom_isSome b (W * H + 1) (by omega) (by omega)
  refine ⟨⟨sy, su, sv, W, k, NV12, Rect 0 0 W H⟩, ?_, ?_⟩
  · simp [writeImageYUV, hnew, hsy, hsu, hsv]
  · intro x y hx0 hx1 hy0 hy1
    have hIn : Point.In ⟨x, y⟩ (Rect 0 0 W H) = true := by
      rw [Point.In_iff, hrect]
      exact ⟨hx0, hx1, hy0, hy1⟩
    obtain ⟨c, hc⟩ : ∃ c, goDiv x 2 = c ∧ 0 ≤ c ∧ c ≤ k - 1 := by
      refine ⟨goDiv x 2, rfl, ?_, ?_⟩ <;> rw [goDiv_two] <;> split <;> omega
    obtain ⟨a, ha⟩ : ∃ a, goDiv y 2 = a ∧ 0 ≤ a ∧ a ≤ l - 1 := by
      refine ⟨goDiv y 2, rfl, ?_, ?_⟩ <;> rw [goDiv_two] <;> split <;> omega
    have hak : a * k ≤ (l - 1) * k := by nlinarith
    have hak0 : 0 ≤ a * k := by nlinarith
    have hyW : y * k ≤ (2 * l - 1) * k := by nlinarith
    have hyW0 : 0 ≤ y * k := by nlinarith
    have hyo : (y - 0) * W + (x - 0) = y * W + x := by ring
    have hco : 2 * ((goDiv y 2 - goDiv 0 2) * k + (goDiv x 2 - goDiv 0 2))
        = goDiv y 2 * W + 2 * goDiv x 2 := by
      have : goDiv 0 2 = 0 := by decide
      rw [this, hk]
      ring
    have hci : goDiv y 2 * W + 2 * goDiv x 2 = 2 * (a * k) + 2 * c := by
      rw [ha.1, hc.1, hk]; ring
    have hyi : y * W + x = 2 * (y * k) + x := by rw [hk]; ring
    have hkl2 : (l - 1) * k = k * l - k := by ring
    have hkl3 : (2 * l - 1) * k = 2 * (k * l) - k := by ring
    obtain ⟨cy, -, hcy⟩ := Slice.index_eq_getElem b (y * W + x) (by omega) (by omega)
    obtain ⟨cu, -, hcu⟩ := Slice.index_eq_getElem b (W * H + goDiv y 2 * W + 2 * goDiv x 2)
      (by omega) (by omega)
    obtain ⟨cv, -, hcv⟩ := Slice.index_eq_getElem b
      (W * H + goDiv y 2 * W + 2 * goDiv x 2 + 1) (by omega) (by omega)
    refine ⟨cy, cu, cv, hcy, hcu, hcv, ?_⟩
    have e1 : sy.index (y * W + x) = some cy := by
      rw [Slice.index_sliceTo b sy (W * H) _ hsy (by omega) (by omega) (by omega)]
      exact hcy
    have e2 : su.index (goDiv y 2 * W + 2 * goDiv x 2) = some cu := by
      rw [Slice.index_sliceFrom b su (W * H) _ hsu (by omega), ← hcu]
      congr 1
      ring
    have e3 : sv.index (goDiv y 2 * W + 2 * goDiv x 2) = some cv := by
      rw [Slice.index_sliceFrom b sv (W * H + 1) _ hsv (by omega)]
      rw [← hcv]
      congr 1
      ring
    simp only [YUV.YUVAt, hIn, YUV.YOffset, YUV.COffset]
    rw [hrect]
    simp only [if_true, hyo, hco, e1, e2, e3]
    simp

theorem writeImage_reproduces_capture_witness :
    capture2x2.len = 2 * 2 + goDiv (2 * 2) 2 ∧
    ∃ p, writeImageYUV 2 2 capture2x2 = some p ∧
      ∀ x y : Int, 0 ≤ x → x < 2 → 0 ≤ y → y < 2 →
        ∃ cy cu cv,
          capture2x2.index (y * 2 + x) = some cy ∧
          capture2x2.index (2 * 2 + goDiv y 2 * 2 + 2 * goDiv x 2) = some cu ∧
          capture2x2.index (2 * 2 + goDiv y 2 * 2 + 2 * goDiv x 2 + 1) = some cv ∧
          p.YUVAt x y = some ⟨cy, cu, cv⟩ :=
  ⟨by decide, writeImage_reproduces_capture 2 2 capture2x2 (by decide) (by decide)
    (by decide) (by decide) (by decide)⟩

/-! ## Construction -/

/-- C4 (failing input): `NewYUV(image.Rect(0, 0, 4, 4), NV12)` has chroma planes
of length 4, while `COffset(2, 2)` is 6, so `YUVAt(2, 2)` on the freshly
constructed image faults with an index out of range. -/
theorem NewYUV_chroma_index_out_of_range :
    Option.map YUV.CStride (NewYUV (Rect 0 0 4 4) NV12) = some 2 ∧
    Option.map (Slice.len ∘ YUV.U) (NewYUV (Rect 0 0 4 4) NV12) = some 4 ∧
    Option.map (Slice.len ∘ YUV.V) (NewYUV (Rect 0 0 4 4) NV12) = some 4 ∧
    Option.map (YUV.COffset · 2 2) (NewYUV (Rect 0 0 4 4) NV12) = some 6 ∧
    Option.bind (NewYUV (Rect 0 0 4 4) NV12) (YUV.YUVAt · 2 2) = none ∧
    Point.In ⟨2, 2⟩ (Rect 0 0 4 4) = true := by
  decide

/-! ## Construction on 64-bit integers -/

/-- C5 (counterexample): the rectangle `(0,0)-(2^32,2^32)` is well formed, but in
4:4:4 mode the products `w*h` and `cw*ch` are `2^64` and wrap to 0: `NewYUV`
returns an image with an empty luma plane, so the pixel `(0, 0)` inside the
rectangle has `YOffset = 0`, which is not below `len(p.Y) = 0`. -/
theorem machineNewYUV_luma_overflow :
    (square32.Min.X ≤ square32.Max.X ∧ square32.Min.Y ≤ square32.Max.Y) ∧
    Point.In ⟨0, 0⟩ square32 = true ∧
    Machine.yuvSize square32 1 = (4294967296, 4294967296, 4294967296, 4294967296) ∧
    Option.map (fun p => p.Y.len) (Machine.NewYUV square32 1) = some 0 ∧
    Option.map (fun p => Machine.YOffset p 0 0) (Machine.NewYUV square32 1) = some 0 ∧
    (square32.Max.X - square32.Min.X) * (square32.Max.Y - square32.Min.Y)
      = 18446744073709551616 := by
  decide

/-- C5 (amended): for every well-formed rectangle `r` of width `W` and height
`H` on which no `int` operation of `NewYUV` overflows, and every subsample
mode, `NewYUV(r, mode)` returns an image `p` with `YStride = W` and
`len(p.Y) = W*H` that stores one luma byte per pixel in row-major order:
`YOffset(x, y) = (y - Min.Y)*W + (x - Min.X)` lies in `0 .. W*H - 1` for every
pixel of `r`, is injective on the pixels, and reaches every index. -/
theorem machineNewYUV_luma_bijection (r : Rectangle) (m : YCbCrSubsampleRatio) (W H : Int)
    (hr : r.Min.X ≤ r.Max.X ∧ r.Min.Y ≤ r.Max.Y) (hno : NoOverflow r m)
    (hW : W = r.Max.X - r.Min.X) (hH : H = r.Max.Y - r.Min.Y) :
    ∃ p, Machine.NewYUV r m = some p ∧ p.YStride = W ∧ p.Y.len = W * H ∧
      (∀ x y : Int, Point.In ⟨x, y⟩ r = true →
        Machine.YOffset p x y = (y - r.Min.Y) * W + (x - r.Min.X) ∧
        0 ≤ Machine.YOffset p x y ∧ Machine.YOffset p x y < p.Y.len) ∧
      (∀ x y x2 y2 : Int, Point.In ⟨x, y⟩ r = true → Point.In ⟨x2, y2⟩ r = true →
        Machine.YOffset p x y = Machine.YOffset p x2 y2 → x = x2 ∧ y = y2) ∧
      (∀ i : Int, 0 ≤ i → i < p.Y.len →
        ∃ x y : Int, Point.In ⟨x, y⟩ r = true ∧ Machine.YOffset p x y = i) := by
  obtain ⟨cw, ch, -, -, -, -, -, -, -, hwh, -, -, -⟩ := NoOverflow_bounds r m hr hno
  obtain ⟨p, hp, hrect, hstride, hlen, hrange, hinj, hsurj⟩ := NewYUV_luma_bijection_exact r m hr
  have hWx : W = r.Dx := hW
  have hHy : H = r.Dy := hH
  have hmin : minInt = -9223372036854775808 := rfl
  have heq : ∀ x y : Int, Point.In ⟨x, y⟩ r = true → Machine.YOffset p x y = p.YOffset x y := by
    intro x y hin
    obtain ⟨h0, h1⟩ := hrange x y hin
    rw [machineYOffset_eq_wrap]
    exact wrap_eq_self _ (by omega) (by omega)
  refine ⟨p, ?_, ?_, ?_, ?_, ?_, ?_⟩
  · rw [machineNewYUV_eq_exact r m hr hno]
    exact hp
  · rw [hstride, hWx]
  · rw [hlen, hWx, hHy]
  · intro x y hin
    rw [heq x y hin]
    refine ⟨?_, hrange x y hin⟩
    simp only [YUV.YOffset, hrect, hstride, hWx]
  · intro x y x2 y2 hin hin2 he
    rw [heq x y hin, heq x2 y2 hin2] at he
    exact hinj x y x2 y2 hin hin2 he
  · intro i hi0 hi1
    obtain ⟨x, y, hin, hxy⟩ := hsurj i hi0 hi1
    exact ⟨x, y, hin, by rw [heq x y hin, hxy]⟩

theorem machineNewYUV_luma_bijection_witness :
    ((Rect 0 0 4 4).Min.X ≤ (Rect 0 0 4 4).Max.X ∧ (Rect 0 0 4 4).Min.Y ≤ (Rect 0 0 4 4).Max.Y) ∧
    NoOverflow (Rect 0 0 4 4) NV12 ∧
    ∃ p, Machine.NewYUV (Rect 0 0 4 4) NV12 = some p ∧ p.YStride = 4 ∧ p.Y.len = 4 * 4 ∧
      (∀ x y : Int, Point.In ⟨x, y⟩ (Rect 0 0 4 4) = true →
        Machine.YOffset p x y = (y - (Rect 0 0 4 4).Min.Y) * 4 + (x - (Rect 0 0 4 4).Min.X) ∧
        0 ≤ Machine.YOffset p x y ∧ Machine.YOffset p x y < p.Y.len) ∧
      (∀ x y x2 y2 : Int, Point.In ⟨x, y⟩ (Rect 0 0 4 4) = true →
        Point.In ⟨x2, y2⟩ (Rect 0 0 4 4) = true →
        Machine.YOffset p x y = Machine.YOffset p x2 y2 → x = x2 ∧ y = y2) ∧
      (∀ i : Int, 0 ≤ i → i < p.Y.len →
        ∃ x y : Int, Point.In ⟨x, y⟩ (Rect 0 0 4 4) = true ∧ Machine.YOffset p x y = i) :=
  ⟨by decide, by unfold NoOverflow; decide,
   machineNewYUV_luma_bijection (Rect 0 0 4 4) NV12 4 4 (by decide)
    (by unfold NoOverflow; decide) (by decide) (by decide)⟩

/-- C6 (counterexample): the rectangle `(0,0)-(MaxInt64,1)` is well formed, but
`Max.X + 1` overflows: `yuvSize` computes `cw = -2^62` instead of
`(Max.X+1)/2 - Min.X/2 = 2^62`, the backing length `w*h + 2*cw*ch` is `-1`,
and `NewYUV` panics in `make` instead of returning an image. -/
theorem machineNewYUV_widest_panics :
    (widest.Min.X ≤ widest.Max.X ∧ widest.Min.Y ≤ widest.Max.Y) ∧
    Int.tdiv (widest.Max.X + 1) 2 - Int.tdiv widest.Min.X 2 = 4611686018427387904 ∧
    Machine.yuvSize widest NV12 = (9223372036854775807, 1, -4611686018427387904, 1) ∧
    wrap (wrap (9223372036854775807 * 1)
      + wrap (wrap (2 * (-4611686018427387904)) * 1)) = -1 ∧
    Machine.NewYUV widest NV12 = none := by
  decide

/-- C6 (amended): for every well-formed rectangle `r` (any origin, even or odd
size) on which no `int` operation of `NewYUV` overflows, `NewYUV(r, NV12)`
returns an image with `Rect = r`, `YStride = W = r.Dx()`, `CStride = cw`,
`len(Y) = W*H`, `len(U) = len(V) = cw*ch` and no spare capacity (so the three
planes together are the `W*H + 2*cw*ch` backing bytes), where
`cw = (Max.X+1)/2 - Min.X/2` and `ch = (Max.Y+1)/2 - Min.Y/2` in Go integer
division; for any other subsample mode the same holds with `cw = W` and
`ch = H`. -/
theorem machineNewYUV_plane_sizes (r : Rectangle)
    (hr : r.Min.X ≤ r.Max.X ∧ r.Min.Y ≤ r.Max.Y) (m : YCbCrSubsampleRatio)
    (hno : NoOverflow r m)
    (W H cw ch : Int) (hW : W = r.Max.X - r.Min.X) (hH : H = r.Max.Y - r.Min.Y)
    (hcw : cw = if m = NV12 then Int.tdiv (r.Max.X + 1) 2 - Int.tdiv r.Min.X 2 else W)
    (hch : ch = if m = NV12 then Int.tdiv (r.Max.Y + 1) 2 - Int.tdiv r.Min.Y 2 else H) :
    ∃ p, Machine.NewYUV r m = some p ∧ p.Rect = r ∧ p.SubsampleRatio = m ∧
      p.YStride = W ∧ W = Machine.Dx r ∧ H = Machine.Dy r ∧ p.CStride = cw ∧
      Machine.yuvSize r m = (W, H, cw, ch) ∧
      p.Y.len = W * H ∧ p.U.len = cw * ch ∧ p.V.len = cw * ch ∧
      p.Y.cap = p.Y.len ∧ p.U.cap = p.U.len ∧ p.V.cap = p.V.len ∧
      p.Y.len + p.U.len + p.V.len = W * H + 2 * cw * ch := by
  obtain ⟨cw2, ch2, hsz, -, -, -, -, -, -, -, -, hdx, hdy⟩ := NoOverflow_bounds r m hr hno
  obtain ⟨p, hp, h1, h2, h3, h4, h5, h6, h7, h8, h9, h10, h11, h12⟩ :=
    NewYUV_plane_sizes_exact r hr m W H cw ch hW hH hcw hch
  have hHy : H = r.Dy := hH
  have hsize : yuvSize r m = (W, H, cw, ch) := by
    unfold yuvSize
    rw [← h4, ← hHy]
    by_cases hm : m = NV12
    · simp only [hm, if_true] at hcw hch ⊢
      rw [hcw, hch]
      rfl
    · simp only [hm, if_false] at hcw hch ⊢
      rw [hcw, hch]
  refine ⟨p, ?_, h1, h2, h3, ?_, ?_, h5, ?_, h6, h7, h8, h9, h10, h11, h12⟩
  · rw [machineNewYUV_eq_exact r m hr hno]
    exact hp
  · rw [hdx]
    exact h4
  · rw [hdy]
    exact hHy
  · rw [machineYuvSize_eq_exact r m hr hno]
    exact hsize

theorem machineNewYUV_plane_sizes_witness :
    NoOverflow oddOrigin2x2 NV12 ∧
    ∃ p, Machine.NewYUV oddOrigin2x2 NV12 = some p ∧ p.Rect = oddOrigin2x2 ∧
      p.SubsampleRatio = NV12 ∧
      p.YStride = 2 ∧ 2 = Machine.Dx oddOrigin2x2 ∧ 2 = Machine.Dy oddOrigin2x2 ∧
      p.CStride = 2 ∧ Machine.yuvSize oddOrigin2x2 NV12 = (2, 2, 2, 2) ∧
      p.Y.len = 2 * 2 ∧ p.U.len = 2 * 2 ∧ p.V.len = 2 * 2 ∧
      p.Y.cap = p.Y.len ∧ p.U.cap = p.U.len ∧ p.V.cap = p.V.len ∧
      p.Y.len + p.U.len + p.V.len = 2 * 2 + 2 * 2 * 2 :=
  ⟨by unfold NoOverflow; decide,
   machineNewYUV_plane_sizes oddOrigin2x2 (by decide) NV12 (by unfold NoOverflow; decide)
    2 2 2 2 (by decide) (by decide) (by decide) (by decide)⟩

/-- C7 (counterexample): the rectangle `(1,1)-(3,3)` has non-negative
coordinates, width 2 and height 2, so `ceil(W/2) = ceil(H/2) = 1` and the
claimed backing length is `2*2 + 2*1*1 = 6`; but `NewYUV` of it in NV12 mode
has chroma dimensions `2 x 2`, chroma planes of length 4 and 12 backing
bytes.  And for `(0,0)-(MaxInt64,1)`, also with non-negative coordinates,
`ceil(W/2) = 2^62` while `yuvSize` computes `cw = -2^62` and `NewYUV` panics. -/
theorem machineNewYUV_chroma_not_ceilHalf :
    (0 ≤ oddOrigin2x2.Min.X ∧ 0 ≤ oddOrigin2x2.Min.Y ∧
      oddOrigin2x2.Min.X ≤ oddOrigin2x2.Max.X ∧ oddOrigin2x2.Min.Y ≤ oddOrigin2x2.Max.Y) ∧
    Machine.yuvSize oddOrigin2x2 NV12 = (2, 2, 2, 2) ∧
    ceilHalf (Machine.Dx oddOrigin2x2) = 1 ∧ ceilHalf (Machine.Dy oddOrigin2x2) = 1 ∧
    Option.map YUV.CStride (Machine.NewYUV oddOrigin2x2 NV12) = some 2 ∧
    Option.map (Slice.len ∘ YUV.Y) (Machine.NewYUV oddOrigin2x2 NV12) = some 4 ∧
    Option.map (Slice.len ∘ YUV.U) (Machine.NewYUV oddOrigin2x2 NV12) = some 4 ∧
    Option.map (Slice.len ∘ YUV.V) (Machine.NewYUV oddOrigin2x2 NV12) = some 4 ∧
    Machine.Dx oddOrigin2x2 * Machine.Dy oddOrigin2x2
      + 2 * ceilHalf (Machine.Dx oddOrigin2x2) * ceilHalf (Machine.Dy oddOrigin2x2) = 6 ∧
    (0 ≤ widest.Min.X ∧ 0 ≤ widest.Min.Y ∧
      widest.Min.X ≤ widest.Max.X ∧ widest.Min.Y ≤ widest.Max.Y) ∧
    ceilHalf (Machine.Dx widest) = 4611686018427387904 ∧
    Machine.yuvSize widest NV12 = (9223372036854775807, 1, -4611686018427387904, 1) ∧
    Machine.NewYUV widest NV12 = none := by
  decide

/-- C7 (amended): for every rectangle `r` with non-negative coordinates, width
`W >= 0` and height `H >= 0` on which no `int` operation of `NewYUV`
overflows, the chroma plane dimensions of `NewYUV(r, NV12)` are
`CW = ceil(W/2)`, except `CW = W/2 + 1` when `Min.X` is odd and `W` is even,
and `CH = ceil(H/2)`, except `CH = H/2 + 1` when `Min.Y` is odd and `H` is
even; the backing storage has length `W*H + 2*CW*CH`. -/
theorem machineNewYUV_chroma_ceilHalf_parity (r : Rectangle)
    (hnn : 0 ≤ r.Min.X ∧ 0 ≤ r.Min.Y)
    (hr : r.Min.X ≤ r.Max.X ∧ r.Min.Y ≤ r.Max.Y)
    (hno : NoOverflow r NV12)
    (W H CW CH : Int) (hW : W = r.Max.X - r.Min.X) (hH : H = r.Max.Y - r.Min.Y)
    (hCW : CW = if r.Min.X % 2 = 1 ∧ W % 2 = 0 then W / 2 + 1 else ceilHalf W)
    (hCH : CH = if r.Min.Y % 2 = 1 ∧ H % 2 = 0 then H / 2 + 1 else ceilHalf H) :
    ∃ p, Machine.NewYUV r NV12 = some p ∧ Machine.yuvSize r NV12 = (W, H, CW, CH) ∧
      p.YStride = W ∧ p.CStride = CW ∧
      p.Y.len = W * H ∧ p.U.len = CW * CH ∧ p.V.len = CW * CH ∧
      p.Y.len + p.U.len + p.V.len = W * H + 2 * CW * CH := by
  have hWx : W = r.Dx := hW
  have hHy : H = r.Dy := hH
  rw [hWx] at hCW
  rw [hHy] at hCH
  obtain ⟨p, hp, h1, h2, h3, h4, h5, h6⟩ :=
    NewYUV_chroma_ceilHalf_parity_exact r hnn hr CW CH hCW hCH
  obtain ⟨cw, ch, -, -, -, hnew⟩ := NewYUV_wellFormed r NV12 hr
  have hst : p.YStride = r.Dx := by
    rw [hp] at hnew
    cases hnew
    rfl
  refine ⟨p, ?_, ?_, ?_, h2, ?_, h4, h5, ?_⟩
  · rw [machineNewYUV_eq_exact r NV12 hr hno]
    exact hp
  · rw [machineYuvSize_eq_exact r NV12 hr hno, hWx, hHy]
    exact h1
  · rw [hst, hWx]
  · rw [h3, hWx, hHy]
  · rw [h6, hWx, hHy]

theorem machineNewYUV_chroma_ceilHalf_parity_witness :
    (0 ≤ oddOrigin2x2.Min.X ∧ 0 ≤ oddOrigin2x2.Min.Y) ∧ NoOverflow oddOrigin2x2 NV12 ∧
    ∃ p, Machine.NewYUV oddOrigin2x2 NV12 = some p ∧
      Machine.yuvSize oddOrigin2x2 NV12 = (2, 2, 2, 2) ∧
      p.YStride = 2 ∧ p.CStride = 2 ∧
      p.Y.len = 2 * 2 ∧ p.U.len = 2 * 2 ∧ p.V.len = 2 * 2 ∧
      p.Y.len + p.U.len + p.V.len = 2 * 2 + 2 * 2 * 2 :=
  ⟨by decide, by unfold NoOverflow; decide,
   machineNewYUV_chroma_ceilHalf_parity oddOrigin2x2 (by decide) (by decide)
    (by unfold NoOverflow; decide) 2 2 2 2 (by decide) (by decide) (by decide) (by decide)⟩

/-- C15 (counterexample): the rectangle `(0,0)-(2^33,2^33)` has non-negative
coordinates; `w*h` and `cw*ch` are multiples of `2^64`, so `NewYUV` returns an
image (with empty planes and `CStride = 2^32`), and its pixels `(0, 0)` and
`(0, 2^32)`, which lie in different 2x2 blocks, both have `COffset = 0`,
because `2 * (2^31 * 2^32)` wraps to 0. -/
theorem machineNewYUV_chroma_alias :
    (0 ≤ square33.Min.X ∧ 0 ≤ square33.Min.Y ∧
      square33.Min.X ≤ square33.Max.X ∧ square33.Min.Y ≤ square33.Max.Y) ∧
    Point.In ⟨0, 0⟩ square33 = true ∧ Point.In ⟨0, 4294967296⟩ square33 = true ∧
    Option.map YUV.CStride (Machine.NewYUV square33 NV12) = some 4294967296 ∧
    Option.map (fun p => Machine.COffset p 0 0) (Machine.NewYUV square33 NV12) = some 0 ∧
    Option.map (fun p => Machine.COffset p 0 4294967296) (Machine.NewYUV square33 NV12)
      = some 0 ∧
    (4294967296 : Int) / 2 ≠ 0 / 2 := by
  decide

/-- C15 (amended): for every rectangle `r` with non-negative coordinates on
which no `int` operation of `NewYUV` overflows, `NewYUV(r, NV12)` returns an
image when `r` is well formed, and in the image it returns two pixels inside
`r` have the same `COffset` exactly when they lie in the same 2x2 block, that
is `floor(x/2) = floor(x2/2)` and `floor(y/2) = floor(y2/2)`. -/
theorem machineNewYUV_chroma_shared_by_block (r : Rectangle)
    (hnn : 0 ≤ r.Min.X ∧ 0 ≤ r.Min.Y) (hno : NoOverflow r NV12) :
    ((r.Min.X ≤ r.Max.X ∧ r.Min.Y ≤ r.Max.Y) → ∃ p, Machine.NewYUV r NV12 = some p) ∧
    ∀ p, Machine.NewYUV r NV12 = some p →
      ∀ x y x2 y2 : Int, Point.In ⟨x, y⟩ r = true → Point.In ⟨x2, y2⟩ r = true →
        (Machine.COffset p x y = Machine.COffset p x2 y2 ↔ x / 2 = x2 / 2 ∧ y / 2 = y2 / 2) := by
  obtain ⟨hex, hiff⟩ := NewYUV_chroma_shared_by_block_exact r hnn
  constructor
  · intro hr
    rw [machineNewYUV_eq_exact r NV12 hr hno]
    exact hex hr
  · intro p hp x y x2 y2 hin hin2
    have hr : r.Min.X ≤ r.Max.X ∧ r.Min.Y ≤ r.Max.Y := by
      have := (Point.In_iff x y r).mp hin
      omega
    rw [machineNewYUV_eq_exact r NV12 hr hno] at hp
    obtain ⟨cw, ch, hsz, -, -, -, -, -, -, -, hcc, -, -⟩ := NoOverflow_bounds r NV12 hr hno
    obtain ⟨cw2, ch2, hsz2, -, -, hnew⟩ := NewYUV_wellFormed r NV12 hr
    rw [hsz] at hsz2
    simp only [Prod.mk.injEq, true_and] at hsz2
    obtain ⟨rfl, rfl⟩ := hsz2
    rw [hp] at hnew
    simp only [Option.some.injEq] at hnew
    have hrect : p.Rect = r := by rw [hnew]
    have hstride : p.CStride = cw := by rw [hnew]
    have hm : p.SubsampleRatio = NV12 := by rw [hnew]
    have hmin : minInt = -9223372036854775808 := rfl
    have heq : ∀ a b : Int, Point.In ⟨a, b⟩ r = true →
        Machine.COffset p a b = p.COffset a b := by
      intro a b hab
      obtain ⟨h0, h1⟩ := NewYUV_COffset_range r hnn cw ch hsz p hrect hstride hm a b hab
      rw [machineCOffset_eq_wrap]
      exact wrap_eq_self _ (by omega) (by omega)
    rw [heq x y hin, heq x2 y2 hin2]
    exact hiff p hp x y x2 y2 hin hin2

theorem machineNewYUV_chroma_shared_by_block_witness :
    (0 ≤ oddOrigin2x2.Min.X ∧ 0 ≤ oddOrigin2x2.Min.Y) ∧ NoOverflow oddOrigin2x2 NV12 ∧
    ((oddOrigin2x2.Min.X ≤ oddOrigin2x2.Max.X ∧ oddOrigin2x2.Min.Y ≤ oddOrigin2x2.Max.Y) →
      ∃ p, Machine.NewYUV oddOrigin2x2 NV12 = some p) ∧
    ∀ p, Machine.NewYUV oddOrigin2x2 NV12 = some p →
      ∀ x y x2 y2 : Int, Point.In ⟨x, y⟩ oddOrigin2x2 = true →
        Point.In ⟨x2, y2⟩ oddOrigin2x2 = true →
        (Machine.COffset p x y = Machine.COffset p x2 y2 ↔ x / 2 = x2 / 2 ∧ y / 2 = y2 / 2) :=
  ⟨by decide, by unfold NoOverflow; decide,
   machineNewYUV_chroma_shared_by_block oddOrigin2x2 (by decide)
    (by unfold NoOverflow; decide)⟩



/-- C8: for every image `p` (any subsample mode) on which every in-bounds
lookup succeeds, and every rectangle `r` sharing at least one point with
`p.Rect`, `p.SubImage(r)` does not fault and returns an image `s` whose `Rect`
is the intersection of `r` and `p.Rect`, with the `SubsampleRatio`,
`YStride` and `CStride` of `p`; `s.YUVAt` equals `p.YUVAt` (and does not fault) at
every point of the intersection and is the zero colour everywhere else. -/
theorem SubImage_shares_pixels (p : YUV) (r : Rectangle)
    (hp : ∀ x y : Int, Point.In ⟨x, y⟩ p.Rect = true → p.YUVAt x y ≠ none)
    (hne : ∃ x y : Int, Point.In ⟨x, y⟩ r = true ∧ Point.In ⟨x, y⟩ p.Rect = true) :
    ∃ s, p.SubImage r = some s ∧
      s.Rect = ⟨⟨max r.Min.X p.Rect.Min.X, max r.Min.Y p.Rect.Min.Y⟩,
                ⟨min r.Max.X p.Rect.Max.X, min r.Max.Y p.Rect.Max.Y⟩⟩ ∧
      (∀ x y : Int, Point.In ⟨x, y⟩ s.Rect = true ↔
        (Point.In ⟨x, y⟩ r = true ∧ Point.In ⟨x, y⟩ p.Rect = true)) ∧
      s.SubsampleRatio = p.SubsampleRatio ∧ s.YStride = p.YStride ∧
      s.CStride = p.CStride ∧
      (∀ x y : Int, Point.In ⟨x, y⟩ r = true → Point.In ⟨x, y⟩ p.Rect = true →
        s.YUVAt x y = p.YUVAt x y ∧ s.YUVAt x y ≠ none) ∧
      (∀ x y : Int, ¬ (Point.In ⟨x, y⟩ r = true ∧ Point.In ⟨x, y⟩ p.Rect = true) →
        s.YUVAt x y = some ⟨0, 0, 0⟩) := by
  obtain ⟨x0, y0, h1, h2⟩ := hne
  obtain ⟨hi, hxlt, hylt⟩ := Rectangle.Intersect_of_common r p.Rect x0 y0 h1 h2
  -- name the corners of the intersection
  obtain ⟨ix, hix⟩ : ∃ ix, ix = max r.Min.X p.Rect.Min.X := ⟨_, rfl⟩
  obtain ⟨iy, hiy⟩ : ∃ iy, iy = max r.Min.Y p.Rect.Min.Y := ⟨_, rfl⟩
  obtain ⟨jx, hjx⟩ : ∃ jx, jx = min r.Max.X p.Rect.Max.X := ⟨_, rfl⟩
  obtain ⟨jy, hjy⟩ : ∃ jy, jy = min r.Max.Y p.Rect.Max.Y := ⟨_, rfl⟩
  rw [← hix, ← hiy, ← hjx, ← hjy] at hi
  rw [← hix, ← hjx] at hxlt
  rw [← hiy, ← hjy] at hylt
  rw [← hix, ← hiy, ← hjx, ← hjy]
  have hne2 : Rectangle.Empty ⟨⟨ix, iy⟩, ⟨jx, jy⟩⟩ = false := by
    rw [← Bool.not_eq_true, Rectangle.Empty_iff]
    simp only
    omega
  have hmem : ∀ x y : Int, Point.In ⟨x, y⟩ ⟨⟨ix, iy⟩, ⟨jx, jy⟩⟩ = true ↔
      (Point.In ⟨x, y⟩ r = true ∧ Point.In ⟨x, y⟩ p.Rect = true) := by
    intro x y
    rw [Point.In_iff, Point.In_iff, Point.In_iff]
    simp only
    omega
  -- the origin of the intersection is a pixel of `p`
  have horig : Point.In ⟨ix, iy⟩ p.Rect = true := by
    rw [Point.In_iff]; omega
  obtain ⟨⟨hy0, hy1⟩, ⟨hu0, hu1⟩, ⟨-, hv1⟩⟩ := (YUVAt_ne_none_iff p _ _ horig).mp (hp _ _ horig)
  obtain ⟨sy, hsy⟩ := Slice.sliceFrom_isSome p.Y (p.YOffset ix iy) hy0 (by omega)
  obtain ⟨su, hsu⟩ := Slice.sliceFrom_isSome p.U (p.COffset ix iy) hu0 (by omega)
  obtain ⟨sv, hsv⟩ := Slice.sliceFrom_isSome p.V (p.COffset ix iy) hu0 (by omega)
  refine ⟨⟨sy, su, sv, p.YStride, p.CStride, p.SubsampleRatio, ⟨⟨ix, iy⟩, ⟨jx, jy⟩⟩⟩,
    ?_, rfl, hmem, rfl, rfl, rfl, ?_, ?_⟩
  · simp [YUV.SubImage, hi, hne2, hsy, hsu, hsv]
  · intro x y hr hpin
    have hs := (hmem x y).mpr ⟨hr, hpin⟩
    have hs2 := hs
    rw [Point.In_iff] at hs2 hpin
    simp only at hs2
    have hky := YOffset_sub_nonneg p ix iy x y hp (by omega) (by omega) (by omega) (by omega)
      (by omega) (by omega)
    have hkc := COffset_sub_nonneg p ix iy x y hp (by omega) (by omega) (by omega) (by omega)
      (by omega) (by omega)
    have ey : p.YOffset ix iy + ((y - iy) * p.YStride + (x - ix)) = p.YOffset x y := by
      simp only [YUV.YOffset]; ring
    have ec : p.COffset ix iy + (if p.SubsampleRatio = NV12 then
          2 * ((goDiv y 2 - goDiv iy 2) * p.CStride + (goDiv x 2 - goDiv ix 2))
        else (y - iy) * p.CStride + (x - ix)) = p.COffset x y := by
      simp only [YUV.COffset]
      split <;> ring
    have hpin2 : Point.In ⟨x, y⟩ p.Rect = true := (Point.In_iff _ _ _).mpr hpin
    have heq : YUV.YUVAt ⟨sy, su, sv, p.YStride, p.CStride, p.SubsampleRatio,
        ⟨⟨ix, iy⟩, ⟨jx, jy⟩⟩⟩ x y = p.YUVAt x y := by
      simp only [YUV.YUVAt, hs, hpin2, YUV.YOffset, YUV.COffset, Bool.not_true,
        Bool.false_eq_true, if_false]
      rw [Slice.index_sliceFrom p.Y sy _ _ hsy hky, Slice.index_sliceFrom p.U su _ _ hsu hkc,
        Slice.index_sliceFrom p.V sv _ _ hsv hkc, ey, ec]
      simp only [YUV.YOffset, YUV.COffset]
    exact ⟨heq, heq ▸ hp x y hpin2⟩
  · intro x y hnot
    have hin : Point.In ⟨x, y⟩ ⟨⟨ix, iy⟩, ⟨jx, jy⟩⟩ = false := by
      rw [← Bool.not_eq_true, hmem]
      exact hnot
    simp [YUV.YUVAt, hin]

theorem SubImage_shares_pixels_witness :
    ∃ s, sample2x2.SubImage (Rect 1 0 5 5) = some s ∧
      s.Rect = ⟨⟨max (Rect 1 0 5 5).Min.X sample2x2.Rect.Min.X,
                 max (Rect 1 0 5 5).Min.Y sample2x2.Rect.Min.Y⟩,
                ⟨min (Rect 1 0 5 5).Max.X sample2x2.Rect.Max.X,
                 min (Rect 1 0 5 5).Max.Y sample2x2.Rect.Max.Y⟩⟩ ∧
      (∀ x y : Int, Point.In ⟨x, y⟩ s.Rect = true ↔
        (Point.In ⟨x, y⟩ (Rect 1 0 5 5) = true ∧ Point.In ⟨x, y⟩ sample2x2.Rect = true)) ∧
      s.SubsampleRatio = sample2x2.SubsampleRatio ∧ s.YStride = sample2x2.YStride ∧
      s.CStride = sample2x2.CStride ∧
      (∀ x y : Int, Point.In ⟨x, y⟩ (Rect 1 0 5 5) = true →
        Point.In ⟨x, y⟩ sample2x2.Rect = true →
        s.YUVAt x y = sample2x2.YUVAt x y ∧ s.YUVAt x y ≠ none) ∧
      (∀ x y : Int,
        ¬ (Point.In ⟨x, y⟩ (Rect 1 0 5 5) = true ∧ Point.In ⟨x, y⟩ sample2x2.Rect = true) →
        s.YUVAt x y = some ⟨0, 0, 0⟩) :=
  SubImage_shares_pixels sample2x2 (Rect 1 0 5 5)
    (by
      intro x y h
      have h2 := (Point.In_iff x y sample2x2.Rect).mp h
      have e1 : sample2x2.Rect.Min.X = 0 := by decide
      have e2 : sample2x2.Rect.Max.X = 2 := by decide
      have e3 : sample2x2.Rect.Min.Y = 0 := by decide
      have e4 : sample2x2.Rect.Max.Y = 2 := by decide
      rw [e1, e2, e3, e4] at h2
      obtain ⟨hx0, hx1, hy0, hy1⟩ := h2
      interval_cases x <;> interval_cases y <;> decide)
    ⟨1, 0, by decide, by decide⟩



/-- C9: for every image `p`, including one whose rectangle is empty,
`p.SubImage(p.Rect)` does not fault and is observationally equal to `p`:
`YUVAt` on it agrees with `p.YUVAt` at every coordinate, in bounds or not (in
particular wherever `p.YUVAt` does not fault). -/
theorem SubImage_full_rect_observationally_equal (p : YUV) :
    ∃ s, p.SubImage p.Rect = some s ∧ ∀ x y : Int, s.YUVAt x y = p.YUVAt x y := by
  rcases Rectangle.Intersect_eq p.Rect p.Rect with ⟨hz, he⟩ | ⟨hi, hx, hy⟩
  · have hempty : ZR.Empty = true := by decide
    refine ⟨⟨Slice.nilSlice, Slice.nilSlice, Slice.nilSlice, 0, 0, p.SubsampleRatio, ZR⟩,
      by simp [YUV.SubImage, hz, hempty], ?_⟩
    intro x y
    rw [YUVAt_ZR]
    have hin : Point.In ⟨x, y⟩ p.Rect = false := by
      rw [← Bool.not_eq_true, Point.In_iff]
      rw [max_self, min_self, max_self, min_self] at he
      omega
    simp [YUV.YUVAt, hin]
  · rw [max_self, min_self] at hx hy
    have hr : p.Rect.Intersect p.Rect = p.Rect := by
      rw [hi, max_self, min_self, max_self, min_self]
    have hne : p.Rect.Empty = false := by
      rw [← Bool.not_eq_true, Rectangle.Empty_iff]
      omega
    have hyo : p.YOffset p.Rect.Min.X p.Rect.Min.Y = 0 := by
      simp [YUV.YOffset]
    have hco : p.COffset p.Rect.Min.X p.Rect.Min.Y = 0 := by
      unfold YUV.COffset
      split <;> simp
    have hs : ∀ t : Slice, t.sliceFrom 0 = some t := by
      intro t
      have : (0 : Int) ≤ t.len := by unfold Slice.len; omega
      simp [Slice.sliceFrom, this]
    refine ⟨p, ?_, fun _ _ => rfl⟩
    simp [YUV.SubImage, hr, hne, hyo, hco, hs]

/-- C10: for every image `p` and every rectangle `r` that has no point in
common with `p.Rect` (disjoint, or one of them empty), `p.SubImage(r)` does not
fault and returns the zero-sized image: the zero rectangle, nil `Y`, `U`, `V`,
zero strides and the `SubsampleRatio` of `p`; `YUVAt` on it is the zero colour at
every coordinate. -/
theorem SubImage_disjoint_zero_sized (p : YUV) (r : Rectangle)
    (hdis : ∀ x y : Int, ¬ (Point.In ⟨x, y⟩ r = true ∧ Point.In ⟨x, y⟩ p.Rect = true)) :
    ∃ s, p.SubImage r = some s ∧
      s.Rect = ZR ∧ s.Rect.Empty = true ∧
      s.Y = Slice.nilSlice ∧ s.U = Slice.nilSlice ∧ s.V = Slice.nilSlice ∧
      s.Y.isNil = true ∧ s.U.isNil = true ∧ s.V.isNil = true ∧
      s.YStride = 0 ∧ s.CStride = 0 ∧ s.SubsampleRatio = p.SubsampleRatio ∧
      ∀ x y : Int, s.YUVAt x y = some ⟨0, 0, 0⟩ := by
  have hz := Rectangle.Intersect_of_disjoint r p.Rect hdis
  have he : ZR.Empty = true := by decide
  refine ⟨⟨Slice.nilSlice, Slice.nilSlice, Slice.nilSlice, 0, 0, p.SubsampleRatio, ZR⟩,
    ?_, rfl, he, rfl, rfl, rfl, rfl, rfl, rfl, rfl, rfl, rfl, ?_⟩
  · simp [YUV.SubImage, hz, he]
  · intro x y
    exact YUVAt_ZR _ _ _ _ _ _ x y

theorem SubImage_disjoint_zero_sized_witness :
    ∃ s, sample2x2.SubImage (Rect 5 5 7 7) = some s ∧
      s.Rect = ZR ∧ s.Rect.Empty = true ∧
      s.Y = Slice.nilSlice ∧ s.U = Slice.nilSlice ∧ s.V = Slice.nilSlice ∧
      s.Y.isNil = true ∧ s.U.isNil = true ∧ s.V.isNil = true ∧
      s.YStride = 0 ∧ s.CStride = 0 ∧ s.SubsampleRatio = sample2x2.SubsampleRatio ∧
      ∀ x y : Int, s.YUVAt x y = some ⟨0, 0, 0⟩ :=
  SubImage_disjoint_zero_sized sample2x2 (Rect 5 5 7 7) (by
    intro x y h
    rw [Point.In_iff, Point.In_iff] at h
    have h1 : (Rect 5 5 7 7).Min.X = 5 := by decide
    have h2 : sample2x2.Rect.Max.X = 2 := by decide
    omega)

/-! ## Chroma layout -/

/-- C16 (counterexample): for the 4x4 capture `capture4x4` (chroma dimensions
2x2, so `W*H + CW*CH + 1 = 21`), the `V` plane `writeImage` builds begins at
buffer offset `W*H + 1 = 17`, not 21, and the byte at offset 19, the last of
the `CW*CH` bytes after the luma plane, is read as the `V` sample of pixel
`(2, 0)`. -/
theorem writeImage_V_not_after_U_region :
    yuvSize (Rect 0 0 4 4) NV12 = (4, 4, 2, 2) ∧
    Option.map (fun p => p.V.elems) (writeImageYUV 4 4 capture4x4)
      = some (capture4x4.elems.drop 17) ∧
    capture4x4.elems.drop 17 ≠ capture4x4.elems.drop (4 * 4 + 2 * 2 + 1) ∧
    capture4x4.index (4 * 4 + 2 * 2 - 1) = some 19 ∧
    Option.bind (writeImageYUV 4 4 capture4x4) (YUV.YUVAt · 2 0) = some ⟨2, 18, 19⟩ := by
  decide

/-- C16 (amended): when `writeImage` is given a capture buffer `b` (the
library example does the same with `W = 3840`, `H = 2160`), the first `W*H`
bytes are the luma plane, plane `U` begins at buffer offset `W*H` and plane `V`
begins one byte after the start of `U`, at offset `W*H + 1`; so `V[k]` is
`U[k+1]` for every `k`: both planes are views of the same interleaved bytes. -/
theorem writeImage_plane_offsets (W H : Int) (b : Slice) (hW : 0 ≤ W) (hH : 0 ≤ H)
    (hlen : W * H + 1 ≤ b.len) :
    ∃ p, writeImageYUV W H b = some p ∧
      p.Y.elems = b.elems.take (W * H).toNat ∧
      p.U.elems = b.elems.drop (W * H).toNat ∧
      p.V.elems = b.elems.drop (W * H + 1).toNat ∧
      ∀ k : Int, 0 ≤ k → p.V.index k = p.U.index (k + 1) := by
  have hWH : 0 ≤ W * H := mul_nonneg hW hH
  have hrect : Rect 0 0 W H = ⟨⟨0, 0⟩, ⟨W, H⟩⟩ := by
    have h1 : ¬ (0 > W) := by omega
    have h2 : ¬ (0 > H) := by omega
    simp [Rect, h1, h2]
  have hwf : (Rect 0 0 W H).WellFormed := by
    rw [hrect]
    exact ⟨hW, hH⟩
  obtain ⟨cw, ch, -, -, -, hnew⟩ := NewYUV_wellFormed (Rect 0 0 W H) NV12 hwf
  obtain ⟨sy, hsy⟩ := Slice.sliceTo_isSome b (W * H) hWH (by omega)
  obtain ⟨su, hsu⟩ := Slice.sliceFrom_isSome b (W * H) hWH (by omega)
  obtain ⟨sv, hsv⟩ := Slice.sliceFrom_isSome b (W * H + 1) (by omega) hlen
  refine ⟨⟨sy, su, sv, (Rect 0 0 W H).Dx, cw, NV12, Rect 0 0 W H⟩, ?_, ?_, ?_, ?_, ?_⟩
  · simp [writeImageYUV, hnew, hsy, hsu, hsv]
  · unfold Slice.sliceTo at hsy
    split at hsy
    · cases hsy
      have hle : (W * H).toNat ≤ b.elems.length := by
        unfold Slice.len at hlen
        omega
      simp [List.take_append_of_le_length hle]
    · cases hsy
  · unfold Slice.sliceFrom at hsu
    split at hsu
    · cases hsu
      rfl
    · cases hsu
  · unfold Slice.sliceFrom at hsv
    split at hsv
    · cases hsv
      rfl
    · cases hsv
  · intro k hk
    simp only
    rw [Slice.index_sliceFrom b sv (W * H + 1) k hsv hk,
      Slice.index_sliceFrom b su (W * H) (k + 1) hsu (by omega)]
    congr 1
    ring

theorem writeImage_plane_offsets_witness :
    (4 : Int) * 4 + 1 ≤ capture4x4.len ∧
    ∃ p, writeImageYUV 4 4 capture4x4 = some p ∧
      p.Y.elems = capture4x4.elems.take ((4 : Int) * 4).toNat ∧
      p.U.elems = capture4x4.elems.drop ((4 : Int) * 4).toNat ∧
      p.V.elems = capture4x4.elems.drop ((4 : Int) * 4 + 1).toNat ∧
      ∀ k : Int, 0 ≤ k → p.V.index k = p.U.index (k + 1) :=
  ⟨by decide, writeImage_plane_offsets 4 4 capture4x4 (by decide) (by decide) (by decide)⟩

/-- C17 (counterexample): in the NV12 image `nv12Image4x4` the sub-image for
the rectangle `(2,2)-(4,4)` starts its `U` and `V` planes at offset
`COffset(2, 2) = 6`, the doubled index that `YUVAt` uses, and not at
`(2/2 - 0/2)*CStride + (2/2 - 0/2) = 3`. -/
theorem SubImage_chroma_offset_doubled :
    nv12Image4x4.SubsampleRatio = NV12 ∧ nv12Image4x4.CStride = 2 ∧
    (goDiv 2 2 - goDiv 0 2) * nv12Image4x4.CStride + (goDiv 2 2 - goDiv 0 2) = 3 ∧
    nv12Image4x4.COffset 2 2 = 6 ∧
    Option.map (fun s => s.U.elems) (nv12Image4x4.SubImage (Rect 2 2 4 4))
      = some (nv12Image4x4.U.elems.drop 6) ∧
    Option.map (fun s => s.V.elems) (nv12Image4x4.SubImage (Rect 2 2 4 4))
      = some (nv12Image4x4.V.elems.drop 6) ∧
    nv12Image4x4.U.elems.drop 6 ≠ nv12Image4x4.U.elems.drop 3 := by
  decide

/-- C17 (amended): pixel lookup and sub-image extraction use the same chroma
index: for an NV12 image `p` and a rectangle `r` meeting `p.Rect`, with `(ix, iy)`
the origin of the intersection, `SubImage(r)` starts the `U` and `V` slices at
`ci = 2*((iy/2 - Min.Y/2)*CStride + (ix/2 - Min.X/2))`, which is
`p.COffset(ix, iy)`, the index `YUVAt(ix, iy)` reads; it returns whenever that
offset and the luma offset are within the planes. -/
theorem SubImage_chroma_offset_consistent (p : YUV) (r : Rectangle) (ix iy ci : Int)
    (hm : p.SubsampleRatio = NV12)
    (hne : ∃ x y : Int, Point.In ⟨x, y⟩ r = true ∧ Point.In ⟨x, y⟩ p.Rect = true)
    (hix : ix = max r.Min.X p.Rect.Min.X) (hiy : iy = max r.Min.Y p.Rect.Min.Y)
    (hci : ci = 2 * ((goDiv iy 2 - goDiv p.Rect.Min.Y 2) * p.CStride
      + (goDiv ix 2 - goDiv p.Rect.Min.X 2)))
    (hy : 0 ≤ p.YOffset ix iy ∧ p.YOffset ix iy ≤ p.Y.len)
    (hc : 0 ≤ ci ∧ ci ≤ p.U.len ∧ ci ≤ p.V.len) :
    ci = p.COffset ix iy ∧
    ∃ s, p.SubImage r = some s ∧ s.Rect.Min = ⟨ix, iy⟩ ∧
      s.U.elems = p.U.elems.drop ci.toNat ∧ s.V.elems = p.V.elems.drop ci.toNat ∧
      ∀ k : Int, 0 ≤ k → s.U.index k = p.U.index (ci + k) ∧ s.V.index k = p.V.index (ci + k) := by
  obtain ⟨x0, y0, h1, h2⟩ := hne
  obtain ⟨hi, hxlt, hylt⟩ := Rectangle.Intersect_of_common r p.Rect x0 y0 h1 h2
  rw [← hix] at hi hxlt
  rw [← hiy] at hi hylt
  have hco : p.COffset ix iy = ci := by
    simp only [YUV.COffset, hm, if_true, hci]
  have hne2 : Rectangle.Empty ⟨⟨ix, iy⟩,
      ⟨min r.Max.X p.Rect.Max.X, min r.Max.Y p.Rect.Max.Y⟩⟩ = false := by
    rw [← Bool.not_eq_true, Rectangle.Empty_iff]
    simp only
    omega
  obtain ⟨sy, hsy⟩ := Slice.sliceFrom_isSome p.Y (p.YOffset ix iy) hy.1 hy.2
  obtain ⟨su, hsu⟩ := Slice.sliceFrom_isSome p.U ci hc.1 hc.2.1
  obtain ⟨sv, hsv⟩ := Slice.sliceFrom_isSome p.V ci hc.1 hc.2.2
  refine ⟨hco.symm, ⟨sy, su, sv, p.YStride, p.CStride, p.SubsampleRatio,
    ⟨⟨ix, iy⟩, ⟨min r.Max.X p.Rect.Max.X, min r.Max.Y p.Rect.Max.Y⟩⟩⟩, ?_, rfl, ?_, ?_, ?_⟩
  · simp [YUV.SubImage, hi, hne2, hco, hsy, hsu, hsv]
  · unfold Slice.sliceFrom at hsu
    split at hsu
    · cases hsu
      rfl
    · cases hsu
  · unfold Slice.sliceFrom at hsv
    split at hsv
    · cases hsv
      rfl
    · cases hsv
  · intro k hk
    exact ⟨Slice.index_sliceFrom p.U su ci k hsu hk, Slice.index_sliceFrom p.V sv ci k hsv hk⟩

theorem SubImage_chroma_offset_consistent_witness :
    (6 : Int) = nv12Image4x4.COffset 2 2 ∧
    ∃ s, nv12Image4x4.SubImage (Rect 2 2 6 6) = some s ∧ s.Rect.Min = ⟨2, 2⟩ ∧
      s.U.elems = nv12Image4x4.U.elems.drop (6 : Int).toNat ∧
      s.V.elems = nv12Image4x4.V.elems.drop (6 : Int).toNat ∧
      ∀ k : Int, 0 ≤ k →
        s.U.index k = nv12Image4x4.U.index (6 + k) ∧ s.V.index k = nv12Image4x4.V.index (6 + k) :=
  SubImage_chroma_offset_consistent nv12Image4x4 (Rect 2 2 6 6) 2 2 6 rfl
    ⟨2, 2, by decide, by decide⟩ (by decide) (by decide) (by decide) (by decide) (by decide)

end Yuv

namespace Nanostill

theorem matchDigitsD_eq_some (n : Nat) (s ds : List Char) :
    matchDigitsD n s = some ds ↔
      (∀ c ∈ ds, c.isDigit = true) ∧ ds.length ≤ n ∧ ∃ t, s = ds ++ 'd' :: t := by
  induction s generalizing n ds with
  | nil =>
    simp [matchDigitsD]
  | cons c cs ih =>
    unfold matchDigitsD
    by_cases hd : c = 'd'
    · subst hd
      simp only [if_true, Option.some.injEq]
      constructor
      · intro h
        subst h
        exact ⟨by simp, by simp, cs, rfl⟩
      · rintro ⟨hdig, -, t, ht⟩
        cases ds with
        | nil => rfl
        | cons e es =>
          exfalso
          simp only [List.cons_append, List.cons.injEq] at ht
          have := hdig e (by simp)
          rw [← ht.1] at this
          exact absurd this (by decide)
    · simp only [hd, if_false]
      by_cases hdig : c.isDigit = true
      · simp only [hdig, if_true]
        cases n with
        | zero =>
          simp only [reduceCtorEq, false_iff]
          rintro ⟨-, hlen, t, ht⟩
          cases ds with
          | nil =>
            simp only [List.nil_append, List.cons.injEq] at ht
            exact hd ht.1
          | cons e es => simp at hlen
        | succ k =>
          simp only [Option.map_eq_some']
          constructor
          · rintro ⟨ds2, h2, rfl⟩
            obtain ⟨h3, h4, t, ht⟩ := (ih k ds2).mp h2
            refine ⟨?_, by simp; omega, t, by simp [ht]⟩
            intro e he
            rcases List.mem_cons.mp he with rfl | he
            · exact hdig
            · exact h3 e he
          · rintro ⟨h3, h4, t, ht⟩
            cases ds with
            | nil =>
              simp only [List.nil_append, List.cons.injEq] at ht
              exact absurd ht.1 hd
            | cons e es =>
              simp only [List.cons_append, List.cons.injEq] at ht
              obtain ⟨rfl, rfl⟩ := ht
              refine ⟨es, (ih k es).mpr ⟨fun x hx => h3 x (by simp [hx]), ?_, t, rfl⟩, rfl⟩
              simp at h4
              omega
      · simp only [hdig, Bool.false_eq_true, if_false, reduceCtorEq, false_iff]
        rintro ⟨h3, -, t, ht⟩
        cases ds with
        | nil =>
          simp only [List.nil_append, List.cons.injEq] at ht
          exact hd ht.1
        | cons e es =>
          simp only [List.cons_append, List.cons.injEq] at ht
          have := h3 e (by simp)
          rw [← ht.1] at this
          exact hdig this

theorem matchAt_eq_some (s m : List Char) :
    matchAt s = some m ↔ IsPlaceholder m ∧ ∃ t, s = m ++ t := by
  cases s with
  | nil =>
    simp only [matchAt, reduceCtorEq, false_iff]
    rintro ⟨⟨ds, rfl, -, -⟩, t, ht⟩
    simp at ht
  | cons c cs =>
    simp only [matchAt]
    by_cases hc : c = '%'
    · subst hc
      simp only [if_true, Option.map_eq_some', matchDigitsD_eq_some]
      constructor
      · rintro ⟨ds, ⟨h1, h2, t, rfl⟩, rfl⟩
        exact ⟨⟨ds, rfl, h1, h2⟩, t, by simp⟩
      · rintro ⟨⟨ds, rfl, h1, h2⟩, t, ht⟩
        refine ⟨ds, ⟨h1, h2, t, ?_⟩, rfl⟩
        simpa using ht
    · simp only [hc, if_false, reduceCtorEq, false_iff]
      rintro ⟨⟨ds, rfl, -, -⟩, t, ht⟩
      simp only [List.cons_append, List.cons.injEq] at ht
      exact hc ht.1

theorem split_before_percent (u v ds t : List Char) (hd : ∀ c ∈ ds, c.isDigit = true)
    (h : u ++ '%' :: v = ds ++ 'd' :: t) : ∃ t2, u = ds ++ 'd' :: t2 := by
  induction ds generalizing u with
  | nil =>
    cases u with
    | nil =>
      simp only [List.nil_append, List.cons.injEq] at h
      exact absurd h.1 (by decide)
    | cons a u2 =>
      simp only [List.cons_append, List.nil_append, List.cons.injEq] at h
      exact ⟨u2, by simp [h.1]⟩
  | cons e es ih =>
    cases u with
    | nil =>
      simp only [List.nil_append, List.cons_append, List.cons.injEq] at h
      have := hd e (by simp)
      rw [← h.1] at this
      exact absurd this (by decide)
    | cons a u2 =>
      simp only [List.cons_append, List.cons.injEq] at h
      obtain ⟨t2, ht2⟩ := ih u2 (fun c hc => hd c (by simp [hc])) h.2
      exact ⟨t2, by simp [h.1, ht2]⟩

theorem IsPlaceholder.ne_nil {ph : List Char} (h : IsPlaceholder ph) :
    ∃ rest, ph = '%' :: rest := by
  obtain ⟨ds, rfl, -, -⟩ := h
  exact ⟨_, rfl⟩

theorem not_contains_tail (c : Char) (s : List Char) (h : ¬ ContainsPlaceholder (c :: s)) :
    ¬ ContainsPlaceholder s := by
  rintro ⟨a, ph, b, hph, rfl⟩
  exact h ⟨c :: a, ph, b, hph, by simp⟩

theorem matchAt_none_before (c : Char) (pre v : List Char)
    (h : ¬ ContainsPlaceholder (c :: pre)) : matchAt ((c :: pre) ++ '%' :: v) = none := by
  cases hm : matchAt ((c :: pre) ++ '%' :: v) with
  | none => rfl
  | some m =>
    exfalso
    obtain ⟨hph, t, ht⟩ := (matchAt_eq_some _ m).mp hm
    obtain ⟨ds, rfl, hdig, hlen⟩ := hph
    simp only [List.cons_append, List.cons.injEq, List.append_assoc] at ht
    obtain ⟨rfl, ht⟩ := ht
    obtain ⟨t2, rfl⟩ := split_before_percent pre v ds _ hdig ht
    exact h ⟨[], '%' :: (ds ++ ['d']), t2, ⟨ds, rfl, hdig, hlen⟩, by simp⟩

theorem FindStringSubmatch_leftmost (pre ph post : List Char)
    (hpre : ¬ ContainsPlaceholder pre) (hph : IsPlaceholder ph) :
    FindStringSubmatch (pre ++ ph ++ post) = [ph, ph] := by
  induction pre with
  | nil =>
    obtain ⟨rest, hrest⟩ := hph.ne_nil
    have hm : matchAt (ph ++ post) = some ph := (matchAt_eq_some _ _).mpr ⟨hph, post, rfl⟩
    rw [List.nil_append]
    rw [hrest] at hm ⊢
    simp only [List.cons_append] at hm ⊢
    simp [FindStringSubmatch, hm]
  | cons c pre2 ih =>
    obtain ⟨rest, hrest⟩ := hph.ne_nil
    have hnone := matchAt_none_before c pre2 (rest ++ post) hpre
    have e : (c :: pre2) ++ ph ++ post = c :: (pre2 ++ ph ++ post) := by simp
    have e2 : (c :: pre2) ++ '%' :: (rest ++ post) = c :: (pre2 ++ ph ++ post) := by
      simp [hrest]
    rw [e2] at hnone
    rw [e]
    simp only [FindStringSubmatch, hnone]
    exact ih (not_contains_tail c pre2 hpre)

theorem FindStringSubmatch_nil_iff (s : List Char) :
    FindStringSubmatch s = [] ↔ ¬ ContainsPlaceholder s := by
  induction s with
  | nil =>
    simp only [FindStringSubmatch, true_iff]
    rintro ⟨a, ph, b, hph, h⟩
    obtain ⟨rest, rfl⟩ := hph.ne_nil
    simp at h
  | cons c cs ih =>
    unfold FindStringSubmatch
    cases hm : matchAt (c :: cs) with
    | some m =>
      simp only [reduceCtorEq, false_iff, not_not]
      obtain ⟨hph, t, ht⟩ := (matchAt_eq_some _ m).mp hm
      exact ⟨[], m, t, hph, by simp [ht]⟩
    | none =>
      simp only
      rw [ih]
      constructor
      · intro h hc
        obtain ⟨a, ph, b, hph, hs⟩ := hc
        cases a with
        | nil =>
          have : matchAt (c :: cs) = some ph := (matchAt_eq_some _ _).mpr ⟨hph, b, by simp [hs]⟩
          rw [hm] at this
          cases this
        | cons a0 a2 =>
          simp only [List.cons_append, List.cons.injEq] at hs
          exact h ⟨a2, ph, b, hph, hs.2⟩
      · exact not_contains_tail c cs

theorem Replace1_leftmost (pre ph post new : List Char)
    (hpre : ¬ ContainsPlaceholder pre) (hph : IsPlaceholder ph) :
    Replace1 (pre ++ ph ++ post) ph new = pre ++ new ++ post := by
  induction pre with
  | nil =>
    obtain ⟨rest, hrest⟩ := hph.ne_nil
    have hp : ph.isPrefixOf (ph ++ post) = true := by
      rw [List.isPrefixOf_iff_prefix]
      exact List.prefix_append ph post
    rw [List.nil_append, List.nil_append]
    have hd : (ph ++ post).drop ph.length = post := List.drop_left ph post
    rw [hrest] at hp hd ⊢
    simp only [List.cons_append] at hp hd ⊢
    simp only [Replace1, hp, if_true]
    rw [hd]
  | cons c pre2 ih =>
    obtain ⟨rest, hrest⟩ := hph.ne_nil
    have hnone := matchAt_none_before c pre2 (rest ++ post) hpre
    have e : (c :: pre2) ++ ph ++ post = c :: (pre2 ++ ph ++ post) := by simp
    have e2 : (c :: pre2) ++ '%' :: (rest ++ post) = c :: (pre2 ++ ph ++ post) := by
      simp [hrest]
    rw [e2] at hnone
    have hnp : ph.isPrefixOf (c :: (pre2 ++ ph ++ post)) = false := by
      rw [← Bool.not_eq_true, List.isPrefixOf_iff_prefix]
      rintro ⟨t, ht⟩
      have : matchAt (c :: (pre2 ++ ph ++ post)) = some ph :=
        (matchAt_eq_some _ _).mpr ⟨hph, t, ht.symm⟩
      rw [hnone] at this
      cases this
    rw [e]
    simp only [Replace1, hnp, Bool.false_eq_true, if_false]
    rw [ih (not_contains_tail c pre2 hpre)]
    simp

theorem getFileName_of_leftmost (pre ph post : List Char) (f : Int)
    (hpre : ¬ ContainsPlaceholder pre) (hph : IsPlaceholder ph) :
    getFileName (pre ++ ph ++ post) f = pre ++ Sprintf ph f ++ post := by
  unfold getFileName
  rw [FindStringSubmatch_leftmost pre ph post hpre hph]
  simp only [List.length_cons, List.length_nil, List.getD_cons_succ, List.getD_cons_zero]
  simp only [Nat.zero_add, Nat.reduceAdd, lt_self_iff_false, if_false]
  exact Replace1_leftmost pre ph post _ hpre hph

theorem foldl_digits_ge (ds : List Char) (acc : Nat) :
    acc ≤ ds.foldl (fun n c => n * 10 + (c.toNat - '0'.toNat)) acc := by
  induction ds generalizing acc with
  | nil => simp
  | cons c cs ih =>
    simp only [List.foldl_cons]
    have := ih (acc * 10 + (c.toNat - '0'.toNat))
    omega

theorem parsenum_digits (ds : List Char) (acc : Nat) (hd : ∀ c ∈ ds, c.isDigit = true)
    (hb : ds = [] ∨ ds.foldl (fun n c => n * 10 + (c.toNat - '0'.toNat)) acc / 10 ≤ 1000000) :
    parsenum (ds ++ ['d']) acc =
      some (ds.foldl (fun n c => n * 10 + (c.toNat - '0'.toNat)) acc, ['d']) := by
  induction ds generalizing acc with
  | nil =>
    have : Char.isDigit 'd' = false := by decide
    simp [parsenum, this]
  | cons c cs ih =>
    have hc : c.isDigit = true := hd c (by simp)
    have hfin : (c :: cs).foldl (fun n c => n * 10 + (c.toNat - '0'.toNat)) acc / 10
        ≤ 1000000 := by
      rcases hb with h | h
      · cases h
      · exact h
    simp only [List.foldl_cons] at hfin ⊢
    have hge := foldl_digits_ge cs (acc * 10 + (c.toNat - '0'.toNat))
    have hacc : ¬ (acc > 1000000) := by omega
    simp only [List.cons_append, parsenum, hc, if_true, hacc, if_false]
    exact ih _ (fun x hx => hd x (by simp [hx])) (Or.inr hfin)

theorem fmtInteger_zero_width (f : Int) (hf : 0 ≤ f) (w : Nat) :
    fmtInteger f true (some w) = zeroPadLeft w (decimal f.toNat) := by
  have hneg : ¬ (f < 0) := by omega
  have habs : f.natAbs = f.toNat := by omega
  simp only [fmtInteger, hneg, decide_False, Bool.false_eq_true, if_false, if_true, habs,
    zeroPadLeft]
  have hlen : w - (List.replicate (w - (decimal f.toNat).length) '0'
      ++ decimal f.toNat).length = 0 := by
    simp only [List.length_append, List.length_replicate]
    omega
  rw [hlen]
  simp

theorem fmtInteger_plain (f : Int) (hf : 0 ≤ f) (z : Bool) :
    fmtInteger f z none = decimal f.toNat := by
  have hneg : ¬ (f < 0) := by omega
  have habs : f.natAbs = f.toNat := by omega
  simp [fmtInteger, hneg, habs]

theorem printfVerb_zero_flag (N : List Char) (f : Int) (hf : 0 ≤ f)
    (hN : ∀ c ∈ N, c.isDigit = true) (hval : decimalValue N ≤ 10000009) :
    printfVerb true f (N ++ ['d']) = zeroPadLeft (decimalValue N) (decimal f.toNat) := by
  induction N with
  | nil =>
    have h1 : ¬ ('d' = '0') := by decide
    simp only [List.nil_append, printfVerb, h1, if_false, if_true]
    rw [fmtInteger_plain f hf]
    simp [zeroPadLeft, decimalValue]
  | cons c cs ih =>
    have hc : c.isDigit = true := hN c (by simp)
    by_cases h0 : c = '0'
    · subst h0
      have hv : decimalValue ('0' :: cs) = decimalValue cs := by
        simp [decimalValue]
      rw [hv] at hval ⊢
      simp only [List.cons_append, printfVerb, if_true]
      exact ih (fun x hx => hN x (by simp [hx])) hval
    · have hd : ¬ (c = 'd') := by
        intro h
        rw [h] at hc
        exact absurd hc (by decide)
      have hp := parsenum_digits (c :: cs) 0 hN (Or.inr (by
        unfold decimalValue at hval
        omega))
      simp only [List.cons_append] at hp
      simp only [List.cons_append, printfVerb, h0, hd, hc, if_false, if_true, List.append_eq, hp]
      exact fmtInteger_zero_width f hf _

theorem getConfig_ok_inv (args : Args) (c : NSConfig) (h : getConfig args = .ok c) :
    (0 ≤ c.flipMethod ∧ c.flipMethod ≤ 8) ∧ c.encoding = args.encoding ∧
      (c.encoding = "jpg" ∨ c.encoding = "bmp" ∨ c.encoding = "gif" ∨ c.encoding = "png") := by
  unfold getConfig at h
  cases hw : Atoi args.width with
  | none => simp [hw] at h
  | some w =>
    cases hh : Atoi args.height with
    | none => simp [hw, hh] at h
    | some ht =>
      cases hf : Atoi args.flipMethod with
      | none => simp [hw, hh, hf] at h
      | some fm =>
        simp only [hw, hh, hf] at h
        by_cases hr : fm < 0 ∨ fm > 8
        · simp [hr] at h
        · simp only [hr, if_false] at h
          cases hto : Atoi args.timeout with
          | none => simp [hto] at h
          | some t =>
            cases hct : Atoi args.captureTimeout with
            | none => simp [hto, hct] at h
            | some ct =>
              simp only [hto, hct] at h
              by_cases he : args.encoding ≠ "jpg" ∧ args.encoding ≠ "bmp" ∧
                  args.encoding ≠ "gif" ∧ args.encoding ≠ "png"
              · simp [he] at h
              · simp only [he, if_false] at h
                have henc : args.encoding = "jpg" ∨ args.encoding = "bmp" ∨
                    args.encoding = "gif" ∨ args.encoding = "png" := by
                  by_contra hcon
                  simp only [not_or] at hcon
                  exact he hcon
                cases htl : args.timelapse with
                | none =>
                  simp only [htl, Outcome.ok.injEq] at h
                  subst h
                  exact ⟨by simp only; omega, rfl, henc⟩
                | some tl =>
                  simp only [htl] at h
                  cases hta : Atoi tl with
                  | none => simp [hta] at h
                  | some tv =>
                    simp only [hta, Outcome.ok.injEq] at h
                    subst h
                    exact ⟨by simp only; omega, rfl, henc⟩

theorem selectResolution_eq_find (w h fps : Int) (l : List CamResolution) :
    selectResolution w h fps l =
      match l.find? (fun r => decide (r.Width ≥ w ∧ r.Height ≥ h)) with
      | none => Except.ok (0, 0)
      | some res =>
        if fps > res.MaxFps then Except.error (BuildError.unsupportedFps fps w h res.MaxFps)
        else Except.ok (res.Width, res.Height) := by
  induction l with
  | nil => rfl
  | cons r rest ih =>
    by_cases hc : r.Width ≥ w ∧ r.Height ≥ h
    · simp [selectResolution, List.find?, hc]
    · simp [selectResolution, List.find?, hc, ih]

theorem inputFrameRate_eq (t : Int) :
    inputFrameRate t = if t ≤ 0 then 1 else max 1 (1000 / t) := by
  unfold inputFrameRate
  by_cases ht : t > 0
  · have h2 : ¬ (t ≤ 0) := by omega
    rw [Int.tdiv_eq_ediv (by decide) (by omega)]
    simp only [ht, h2, if_true, if_false]
    split <;> omega
  · have h2 : t ≤ 0 := by omega
    simp [ht, h2]

theorem inputFrameRate_pos (t : Int) : 1 ≤ inputFrameRate t := by
  rw [inputFrameRate_eq]
  split <;> omega

theorem find_covering_facts (w h : Int) (res : CamResolution)
    (hf : ValidCamResolutions.find? (fun r => decide (r.Width ≥ w ∧ r.Height ≥ h)) = some res) :
    res.Width ≠ 0 ∧ res.Height ≠ 0 ∧ res.MaxFps ≤ 60 ∧
      (∀ r ∈ ValidCamResolutions, r.Width ≥ w → r.Height ≥ h →
        res.Width ≤ r.Width ∧ res.Height ≤ r.Height ∧ r.MaxFps ≤ res.MaxFps) := by
  simp only [ValidCamResolutions, List.find?] at hf
  simp only [ValidCamResolutions, List.mem_cons, List.mem_singleton, List.not_mem_nil, or_false]
  by_cases h1 : (1280 : Int) ≥ w ∧ (720 : Int) ≥ h
  · rw [decide_eq_true h1] at hf
    simp only [Option.some.injEq] at hf
    subst hf
    refine ⟨by decide, by decide, by decide, ?_⟩
    rintro r (rfl | rfl | rfl | rfl) hw hh <;> simp only at hw hh ⊢ <;> omega
  · rw [decide_eq_false h1] at hf
    by_cases h2 : (1920 : Int) ≥ w ∧ (1080 : Int) ≥ h
    · rw [decide_eq_true h2] at hf
      simp only [Option.some.injEq] at hf
      subst hf
      refine ⟨by decide, by decide, by decide, ?_⟩
      rintro r (rfl | rfl | rfl | rfl) hw hh <;> simp only at hw hh ⊢ <;> omega
    · rw [decide_eq_false h2] at hf
      by_cases h3 : (3264 : Int) ≥ w ∧ (1848 : Int) ≥ h
      · rw [decide_eq_true h3] at hf
        simp only [Option.some.injEq] at hf
        subst hf
        refine ⟨by decide, by decide, by decide, ?_⟩
        rintro r (rfl | rfl | rfl | rfl) hw hh <;> simp only at hw hh ⊢ <;> omega
      · rw [decide_eq_false h3] at hf
        by_cases h4 : (3264 : Int) ≥ w ∧ (2464 : Int) ≥ h
        · rw [decide_eq_true h4] at hf
          simp only [Option.some.injEq] at hf
          subst hf
          refine ⟨by decide, by decide, by decide, ?_⟩
          rintro r (rfl | rfl | rfl | rfl) hw hh <;> simp only at hw hh ⊢ <;> omega
        · rw [decide_eq_false h4] at hf
          simp at hf

theorem buildGstPipeline_cases (cfg : NSConfig) :
    (ValidCamResolutions.find?
        (fun r => decide (r.Width ≥ cfg.width ∧ r.Height ≥ cfg.height)) = none ∧
      buildGstPipeline cfg = Except.error (BuildError.noResolution cfg.width cfg.height)) ∨
    (∃ res, ValidCamResolutions.find?
        (fun r => decide (r.Width ≥ cfg.width ∧ r.Height ≥ cfg.height)) = some res ∧
      buildGstPipeline cfg =
        if inputFrameRate cfg.timelapse > res.MaxFps then
          Except.error (BuildError.unsupportedFps (inputFrameRate cfg.timelapse) cfg.width
            cfg.height res.MaxFps)
        else if cfg.source = "test" then
          Except.ok ⟨Pipeline.videotestsrc (inputFrameRate cfg.timelapse) cfg.width cfg.height,
            inputFrameRate cfg.timelapse, res.Width, res.Height⟩
        else if cfg.source = "nvarguscamera" then
          Except.ok ⟨Pipeline.nvarguscamerasrc res.Width res.Height
            (inputFrameRate cfg.timelapse) cfg.flipMethod cfg.width cfg.height,
            inputFrameRate cfg.timelapse, res.Width, res.Height⟩
        else Except.error BuildError.invalidSource) := by
  simp only [buildGstPipeline, selectResolution_eq_find]
  cases hf : ValidCamResolutions.find?
      (fun r => decide (r.Width ≥ cfg.width ∧ r.Height ≥ cfg.height)) with
  | none =>
    left
    simp
  | some res =>
    right
    refine ⟨res, rfl, ?_⟩
    obtain ⟨hw, hh, -, -⟩ := find_covering_facts cfg.width cfg.height res hf
    by_cases hfps : inputFrameRate cfg.timelapse > res.MaxFps
    · simp [hfps]
    · simp [hfps, hw, hh]

/-- When the options checked before `--encoding` are valid, `getConfig` returns
the `Invalid --encoding` error for every encoding other than `jpg`, `bmp`,
`gif`, `png`; it never accepts such an encoding; and every configuration it
accepts selects one of the four encoders of `writeImage`. -/
theorem getConfig_unsupported_encoding_not_accepted :
    (∀ (args : Args) (w h fm t ct : Int),
      Atoi args.width = some w → Atoi args.height = some h →
      Atoi args.flipMethod = some fm → (0 ≤ fm ∧ fm ≤ 8) →
      Atoi args.timeout = some t → Atoi args.captureTimeout = some ct →
      (args.encoding ≠ "jpg" ∧ args.encoding ≠ "bmp" ∧ args.encoding ≠ "gif" ∧
        args.encoding ≠ "png") →
      getConfig args = Outcome.error ConfigError.invalidEncoding) ∧
    (∀ (args : Args),
      (args.encoding ≠ "jpg" ∧ args.encoding ≠ "bmp" ∧ args.encoding ≠ "gif" ∧
        args.encoding ≠ "png") →
      ∀ c : NSConfig, getConfig args ≠ Outcome.ok c) ∧
    (∀ (args : Args) (c : NSConfig), getConfig args = Outcome.ok c →
      c.encoding = args.encoding ∧
      (c.encoding = "jpg" ∨ c.encoding = "bmp" ∨ c.encoding = "gif" ∨ c.encoding = "png") ∧
      selectEncoder c.encoding ≠ none) := by
  refine ⟨?_, ?_, ?_⟩
  · intro args w h fm t ct hw hh hf hr hto hct he
    have hr2 : ¬ (fm < 0 ∨ fm > 8) := by omega
    simp [getConfig, hw, hh, hf, hr2, hto, hct, he]
  · intro args he c hc
    obtain ⟨-, h1, h2⟩ := getConfig_ok_inv args c hc
    rw [h1] at h2
    rcases h2 with h | h | h | h
    · exact he.1 h
    · exact he.2.1 h
    · exact he.2.2.1 h
    · exact he.2.2.2 h
  · intro args c hc
    obtain ⟨-, h1, h2⟩ := getConfig_ok_inv args c hc
    refine ⟨h1, h2, ?_⟩
    rcases h2 with h | h | h | h <;> rw [h] <;> decide

/-! ## File names -/

/-- C11 (counterexample): the pattern `%010000010d` has the claimed form with
an empty `pre` and `post` and the 8-digit width `N = 10000010`, but
`getFileName` of it with frame 7 is `%!(NOVERB)%!(EXTRA int=7)` (the width is
too large for `fmt`), not 7 left-padded with zeros to 10000010 characters. -/
theorem getFileName_width_too_large :
    (¬ ContainsPlaceholder [] ∧ (∀ c ∈ "10000010".toList, c.isDigit = true) ∧
      1 ≤ "10000010".toList.length ∧ "10000010".toList.length ≤ 98) ∧
    getFileName ([] ++ ('%' :: '0' :: ("10000010".toList ++ ['d'])) ++ []) 7
      = "%!(NOVERB)%!(EXTRA int=7)".toList ∧
    getFileName ([] ++ ('%' :: '0' :: ("10000010".toList ++ ['d'])) ++ []) 7
      ≠ [] ++ zeroPadLeft (decimalValue "10000010".toList) (decimal (7 : Int).toNat) ++ [] := by
  have e : getFileName ([] ++ ('%' :: '0' :: ("10000010".toList ++ ['d'])) ++ []) 7
      = "%!(NOVERB)%!(EXTRA int=7)".toList := by decide
  refine ⟨⟨(FindStringSubmatch_nil_iff []).mp rfl, by decide, by decide, by decide⟩, e, ?_⟩
  rw [e]
  intro h
  have hl := congrArg List.length h
  have v : decimalValue "10000010".toList = 10000010 := by decide
  have l1 : (decimal (7 : Int).toNat).length = 1 := by decide
  have l2 : "%!(NOVERB)%!(EXTRA int=7)".toList.length = 25 := by decide
  rw [l2] at hl
  simp only [zeroPadLeft, List.nil_append, List.append_nil, List.length_append,
    List.length_replicate, v, l1] at hl
  omega

/-- C11 (amended): for every output pattern `pre ++ "%0" ++ N ++ "d" ++ post`
where `N` is 1 to 98 decimal digits of value at most 10000009 and `pre`
contains no placeholder, and every frame number `f >= 0`, `getFileName` returns
`pre`, then the decimal of `f` left-padded with zeros to at least `N`
characters, then `post`; and `getFileName("img_%04d.jpg", 7)` is
`img_0007.jpg`. -/
theorem getFileName_zero_padded :
    (∀ (pre N post : List Char) (f : Int),
      ¬ ContainsPlaceholder pre → (∀ c ∈ N, c.isDigit = true) →
      (1 ≤ N.length ∧ N.length ≤ 98) → decimalValue N ≤ 10000009 → 0 ≤ f →
      getFileName (pre ++ ('%' :: '0' :: (N ++ ['d'])) ++ post) f
        = pre ++ zeroPadLeft (decimalValue N) (decimal f.toNat) ++ post) ∧
    getFileName "img_%04d.jpg".toList 7 = "img_0007.jpg".toList := by
  refine ⟨?_, by decide⟩
  intro pre N post f hpre hN hlen hval hf
  have hph : IsPlaceholder ('%' :: '0' :: (N ++ ['d'])) := by
    refine ⟨'0' :: N, by simp, ?_, by simp; omega⟩
    intro c hc
    rcases List.mem_cons.mp hc with rfl | hc
    · decide
    · exact hN c hc
  rw [getFileName_of_leftmost pre _ post f hpre hph]
  have hs : Sprintf ('%' :: '0' :: (N ++ ['d'])) f = printfVerb true f (N ++ ['d']) := by
    simp [Sprintf, printfVerb]
  rw [hs, printfVerb_zero_flag N f hf hN hval]

theorem getFileName_zero_padded_witness :
    (¬ ContainsPlaceholder "img_".toList ∧ decimalValue ['4'] ≤ 10000009) ∧
    getFileName ("img_".toList ++ ('%' :: '0' :: (['4'] ++ ['d'])) ++ ".jpg".toList) 7
      = "img_".toList ++ zeroPadLeft (decimalValue ['4']) (decimal (7 : Int).toNat)
          ++ ".jpg".toList :=
  ⟨⟨(FindStringSubmatch_nil_iff _).mp (by decide), by decide⟩,
   getFileName_zero_padded.1 "img_".toList ['4'] ".jpg".toList 7
    ((FindStringSubmatch_nil_iff _).mp (by decide)) (by decide) (by decide) (by decide)
    (by decide)⟩

/-- C12: for every output name with no substring matching `%\d{0,99}d` and
every frame number, `getFileName` returns the name unchanged. -/
theorem getFileName_no_placeholder (name : List Char) (f : Int)
    (h : ¬ ContainsPlaceholder name) : getFileName name f = name := by
  unfold getFileName
  rw [(FindStringSubmatch_nil_iff name).mpr h]
  simp

theorem getFileName_no_placeholder_witness :
    ¬ ContainsPlaceholder "out%5.jpg".toList ∧
      getFileName "out%5.jpg".toList 3 = "out%5.jpg".toList :=
  ⟨(FindStringSubmatch_nil_iff _).mp (by decide),
   getFileName_no_placeholder "out%5.jpg".toList 3 ((FindStringSubmatch_nil_iff _).mp (by decide))⟩

/-- C20: `getFileName` substitutes only the leftmost placeholder: for every
name `pre ++ ph ++ post` where `ph` matches `%\d{0,99}d` and `pre` contains no
match, and every frame `f`, the result is `pre ++ Sprintf(ph, f) ++ post`,
with `pre` and `post` copied verbatim; `a%d_b%d` with frame 7 gives `a7_b%d`. -/
theorem getFileName_leftmost_only :
    (∀ (pre ph post : List Char) (f : Int),
      IsPlaceholder ph → ¬ ContainsPlaceholder pre →
      getFileName (pre ++ ph ++ post) f = pre ++ Sprintf ph f ++ post) ∧
    getFileName "a%d_b%d".toList 7 = "a7_b%d".toList := by
  refine ⟨?_, by decide⟩
  intro pre ph post f hph hpre
  exact getFileName_of_leftmost pre ph post f hpre hph

theorem getFileName_leftmost_only_witness :
    (IsPlaceholder "%d".toList ∧ ¬ ContainsPlaceholder "a".toList) ∧
    getFileName ("a".toList ++ "%d".toList ++ "_b%d".toList) 7
      = "a".toList ++ Sprintf "%d".toList 7 ++ "_b%d".toList :=
  ⟨⟨⟨[], rfl, by simp, by simp⟩, (FindStringSubmatch_nil_iff _).mp (by decide)⟩,
   getFileName_leftmost_only.1 "a".toList "%d".toList "_b%d".toList 7
    ⟨[], rfl, by simp, by simp⟩ ((FindStringSubmatch_nil_iff _).mp (by decide))⟩

/-! ## Configuration -/

/-- C13 (failing input): with `--flip-method 9` (or `-1`) and every other
option at its default, `Atoi` succeeds, the range check is taken, and
`getConfig` panics while building the message (`err.Error()` on a nil `err`)
instead of returning the `Invalid --flip-method, expected # 0-8` error. -/
theorem getConfig_flipMethod_out_of_range_faults :
    Atoi "9" = some 9 ∧
    getConfig { defaultArgs with flipMethod := "9" } = Outcome.fault ∧
    Atoi "-1" = some (-1) ∧
    getConfig { defaultArgs with flipMethod := "-1" } = Outcome.fault ∧
    getConfig { defaultArgs with flipMethod := "x" } = Outcome.error ConfigError.invalidFlipMethod := by
  decide

/-- C14 (failing input): with `--flip-method 9 --encoding tiff` the unsupported
encoding is not reported: `getConfig` panics in the range check of
`--flip-method`, which comes first, instead of returning an error.  With a
valid `--flip-method` the same encoding gets the `Invalid --encoding` error. -/
theorem getConfig_unsupported_encoding_faults :
    getConfig { defaultArgs with flipMethod := "9", encoding := "tiff" } = Outcome.fault ∧
    Atoi "9" = some 9 ∧
    getConfig { defaultArgs with encoding := "tiff" }
      = Outcome.error ConfigError.invalidEncoding ∧
    selectEncoder "tiff" = none := by
  decide

/-! ## Pipeline construction -/

/-- C18: with `fps = 1` when `timelapse <= 0` and `fps = max(1, 1000/timelapse)`
otherwise, `buildGstPipeline` succeeds exactly when the source is `test` or
`nvarguscamera` and the first entry of `ValidCamResolutions` with
`Width >= cfg.width` and `Height >= cfg.height` exists and has `MaxFps >= fps`;
on success the frame rate is `fps`, the source resolution is that first entry,
which is component-wise no larger than every listed resolution covering the
request, and `1 <= fps <= 60`. -/
theorem buildGstPipeline_succeeds_iff (cfg : NSConfig) (fps : Int)
    (hfps : fps = if cfg.timelapse ≤ 0 then 1 else max 1 (1000 / cfg.timelapse)) :
    ((∃ out, buildGstPipeline cfg = Except.ok out) ↔
      ((cfg.source = "test" ∨ cfg.source = "nvarguscamera") ∧
        ∃ res, ValidCamResolutions.find?
            (fun r => decide (r.Width ≥ cfg.width ∧ r.Height ≥ cfg.height)) = some res ∧
          fps ≤ res.MaxFps)) ∧
    (∀ out, buildGstPipeline cfg = Except.ok out →
      ∃ res, ValidCamResolutions.find?
          (fun r => decide (r.Width ≥ cfg.width ∧ r.Height ≥ cfg.height)) = some res ∧
        res ∈ ValidCamResolutions ∧ res.Width ≥ cfg.width ∧ res.Height ≥ cfg.height ∧
        out.sourceWidth = res.Width ∧ out.sourceHeight = res.Height ∧
        out.inputFrameRate = fps ∧
        out.gst = (if cfg.source = "test" then Pipeline.videotestsrc fps cfg.width cfg.height
          else Pipeline.nvarguscamerasrc res.Width res.Height fps cfg.flipMethod cfg.width
            cfg.height) ∧
        (∀ r ∈ ValidCamResolutions, r.Width ≥ cfg.width → r.Height ≥ cfg.height →
          res.Width ≤ r.Width ∧ res.Height ≤ r.Height) ∧
        1 ≤ fps ∧ fps ≤ 60) := by
  have hrate : inputFrameRate cfg.timelapse = fps := by rw [hfps, inputFrameRate_eq]
  have hpos : 1 ≤ fps := hrate ▸ inputFrameRate_pos cfg.timelapse
  rcases buildGstPipeline_cases cfg with ⟨hnone, hb⟩ | ⟨res, hsome, hb⟩
  · rw [hb, hnone]
    constructor
    · constructor
      · rintro ⟨out, h⟩
        cases h
      · rintro ⟨-, res, h, -⟩
        cases h
    · intro out h
      cases h
  · rw [hrate] at hb
    rw [hb, hsome]
    obtain ⟨-, -, h60, hmin⟩ := find_covering_facts cfg.width cfg.height res hsome
    have hcov := List.find?_some hsome
    have hmem := List.mem_of_find?_eq_some hsome
    simp only [decide_eq_true_eq] at hcov
    by_cases hgt : fps > res.MaxFps
    · simp only [hgt, if_true]
      constructor
      · constructor
        · rintro ⟨out, h⟩
          cases h
        · rintro ⟨-, res2, h, hle⟩
          cases h
          omega
      · intro out h
        cases h
    · simp only [hgt, if_false]
      have hle : fps ≤ res.MaxFps := by omega
      by_cases ht : cfg.source = "test"
      · simp only [ht, if_true]
        constructor
        · exact ⟨fun _ => ⟨Or.inl trivial, res, rfl, hle⟩, fun _ => ⟨_, rfl⟩⟩
        · intro out h
          cases h
          exact ⟨res, rfl, hmem, hcov.1, hcov.2, rfl, rfl, rfl, rfl,
            fun r hr hw hh => ⟨(hmin r hr hw hh).1, (hmin r hr hw hh).2.1⟩, hpos, by omega⟩
      · by_cases hn : cfg.source = "nvarguscamera"
        · simp only [ht, hn, if_true, if_false]
          constructor
          · exact ⟨fun _ => ⟨Or.inr trivial, res, rfl, hle⟩, fun _ => ⟨_, rfl⟩⟩
          · intro out h
            cases h
            refine ⟨res, rfl, hmem, hcov.1, hcov.2, rfl, rfl, rfl, ?_,
              fun r hr hw hh => ⟨(hmin r hr hw hh).1, (hmin r hr hw hh).2.1⟩, hpos, by omega⟩
            simp
        · simp only [ht, hn, if_false]
          constructor
          · constructor
            · rintro ⟨out, h⟩
              cases h
            · rintro ⟨hs, -⟩
              rcases hs with h | h
              · exact h.elim
              · exact h.elim
          · intro out h
            cases h

/-- C19: whenever `buildGstPipeline` fails with the `Couldn't support requested
FPS` error, the frame rate in the error is the requested one and no entry of
`ValidCamResolutions` covering the requested width and height has `MaxFps` at
least that frame rate. -/
theorem buildGstPipeline_fps_error_final (cfg : NSConfig) (fps w h maxFps : Int)
    (herr : buildGstPipeline cfg = Except.error (BuildError.unsupportedFps fps w h maxFps)) :
    fps = (if cfg.timelapse ≤ 0 then 1 else max 1 (1000 / cfg.timelapse)) ∧
    w = cfg.width ∧ h = cfg.height ∧
    ∀ r ∈ ValidCamResolutions, r.Width ≥ cfg.width → r.Height ≥ cfg.height →
      ¬ (r.MaxFps ≥ fps) := by
  rcases buildGstPipeline_cases cfg with ⟨-, hb⟩ | ⟨res, hsome, hb⟩
  · rw [hb] at herr
    cases herr
  · rw [hb] at herr
    obtain ⟨-, -, -, hmin⟩ := find_covering_facts cfg.width cfg.height res hsome
    by_cases hgt : inputFrameRate cfg.timelapse > res.MaxFps
    · simp only [hgt, if_true, Except.error.injEq, BuildError.unsupportedFps.injEq] at herr
      obtain ⟨h1, h2, h3, h4⟩ := herr
      refine ⟨?_, h2.symm, h3.symm, ?_⟩
      · rw [← h1, inputFrameRate_eq]
      · intro r hr hw hh
        have := (hmin r hr hw hh).2.2
        omega
    · simp only [hgt, if_false] at herr
      split at herr
      · cases herr
      · split at herr <;> cases herr

theorem buildGstPipeline_succeeds_iff_witness :
    ((∃ out, buildGstPipeline sampleRequest = Except.ok out) ↔
      ((sampleRequest.source = "test" ∨ sampleRequest.source = "nvarguscamera") ∧
        ∃ res, ValidCamResolutions.find?
            (fun r => decide (r.Width ≥ sampleRequest.width ∧ r.Height ≥ sampleRequest.height))
              = some res ∧
          20 ≤ res.MaxFps)) ∧
    (∀ out, buildGstPipeline sampleRequest = Except.ok out →
      ∃ res, ValidCamResolutions.find?
          (fun r => decide (r.Width ≥ sampleRequest.width ∧ r.Height ≥ sampleRequest.height))
            = some res ∧
        res ∈ ValidCamResolutions ∧ res.Width ≥ sampleRequest.width ∧
        res.Height ≥ sampleRequest.height ∧
        out.sourceWidth = res.Width ∧ out.sourceHeight = res.Height ∧
        out.inputFrameRate = 20 ∧
        out.gst = (if sampleRequest.source = "test" then
            Pipeline.videotestsrc 20 sampleRequest.width sampleRequest.height
          else Pipeline.nvarguscamerasrc res.Width res.Height 20 sampleRequest.flipMethod
            sampleRequest.width sampleRequest.height) ∧
        (∀ r ∈ ValidCamResolutions, r.Width ≥ sampleRequest.width →
          r.Height ≥ sampleRequest.height →
          res.Width ≤ r.Width ∧ res.Height ≤ r.Height) ∧
        1 ≤ (20 : Int) ∧ (20 : Int) ≤ 60) :=
  buildGstPipeline_succeeds_iff sampleRequest 20 (by decide)

theorem buildGstPipeline_fps_error_final_witness :
    buildGstPipeline fastRequest = Except.error (BuildError.unsupportedFps 100 3264 2464 21) ∧
    (100 = (if fastRequest.timelapse ≤ 0 then 1 else max 1 (1000 / fastRequest.timelapse)) ∧
      3264 = fastRequest.width ∧ 2464 = fastRequest.height ∧
      ∀ r ∈ ValidCamResolutions, r.Width ≥ fastRequest.width → r.Height ≥ fastRequest.height →
        ¬ (r.MaxFps ≥ 100)) :=
  ⟨rfl, buildGstPipeline_fps_error_final fastRequest 100 3264 2464 21 rfl⟩

end Nanostill
